import Mathlib

/-!
Verification of the tyro/dcargs type-to-CLI compiler specification.

The repository's public surface (src/dcargs/__init__.py) exposes cli, MISSING,
extras and UnsupportedTypeAnnotationError; the core pipeline
(Adapter, Schema Compiler, Flag Namer, Parser, Instantiator) is modelled here
from the specification, since only its declarations and example callers are in
the source tree.  Definitions whose doc comment starts with
"Modelled from the spec:" embed those missing components, faithful to the
spec's description of the data model (section 3), the component contracts
(section 4) and the error taxonomy (section 7).
-/

namespace Dcargs

/-- Modelled from the spec: scalar primitive kinds recognized by the Type
Description Adapter (boolean, integer, text; paths are text-like). -/
inductive PrimKind where
  | pbool
  | pint
  | ptext
deriving DecidableEq, Repr

/-- Modelled from the spec: runtime values of the structured types, including
the MISSING sentinel, which is distinct from every representable domain
value. -/
inductive Value where
  | vbool (b : Bool)
  | vint (n : Int)
  | vstr (s : String)
  | vlist (vs : List Value)
  | vtuple (vs : List Value)
  | vmap (kvs : List (Value × Value))
  | vnone
  | vsome (v : Value)
  | vrecord (fvs : List (String × Value))
  | vvariant (n : String) (v : Value)
  | vmissing
deriving Repr

/-- The MISSING sentinel exported by the package (MISSING_PUBLIC). -/
def MISSING : Value := Value.vmissing

/-- Modelled from the spec: the internal, language-neutral TypeNode form
produced by the Type Description Adapter (section 3).  Union variants carry a
name, an optional description and an optional per-variant default value, the
annotations a ChoicePoint branch needs (section 6).  foreignTy stands for an
un-introspectable opaque type. -/
inductive TypeNode where
  | scalar (k : PrimKind)
  | lit (allowed : List String)
  | opt (inner : TypeNode)
  | seq (elem : TypeNode) (fixedLen : Option Nat)
  | tup (elems : List TypeNode)
  | mapping (key : TypeNode) (val : TypeNode)
  | record (fields : List (String × TypeNode × Option Value))
  | union (variants : List (String × Option String × Option Value × TypeNode))
  | foreignTy
deriving Repr

/-- Modelled from the spec: the error taxonomy of section 7.  The single
compile-time kind unsupportedTypeDescription models the package's exported
UnsupportedTypeAnnotationError.  internalError is an artifact of the fuel
used to present the Parser's loop; it is never reached with the fuel the
Parser supplies. -/
inductive Err where
  | unsupportedTypeDescription (path : List String)
  | requiredValueMissing (path : List String)
  | valueConversionFailed (path : List String) (tok : String) (expected : TypeNode)
  | unrecognizedToken (tok : String)
  | internalError
deriving Repr

/-- Modelled from the spec: leaf arities (section 3). -/
inductive Arity where
  | exactlyN (n : Nat)
  | zeroOrMore
  | oneOrMore
deriving DecidableEq, Repr

/-- Modelled from the spec: a LeafArgument: canonical flag path, the leaf's
TypeNode (which determines its value parser and arity), and its resolved
default (none means MISSING, i.e. required). -/
structure LeafInfo where
  path : List String
  ty : TypeNode
  dflt : Option Value
deriving Repr

/-- Modelled from the spec: the ArgumentTree: ArgumentGroups mirror Records,
ChoicePoints mirror Unions (branches carry a name, an optional description
and a subtree), LeafArguments terminate the rest. -/
inductive ArgTree where
  | leaf (info : LeafInfo)
  | group (path : List String) (children : List (String × ArgTree))
  | choice (path : List String) (branches : List (String × Option String × ArgTree))
      (defaultBranch : Option String)
deriving Repr

/-- Modelled from the spec: ParsedValues: a map from leaf identity (its flag
path) to the raw tokens it consumed, plus the branch chosen at each
ChoicePoint. -/
structure PV where
  leafVals : List (List String × List String)
  chosen : List (List String × String)
deriving Repr

/-! ### Assoc-list helper -/

/-- First-match association lookup. -/
def alookup {κ α : Type} [DecidableEq κ] (k : κ) : List (κ × α) → Option α
  | [] => none
  | (k', a) :: rest => if k' = k then some a else alookup k rest

/-! ### Flag Namer -/

/-- Normalization applied to each path component: underscores become
dashes. -/
def normChar (c : Char) : Char := if c = '_' then '-' else c

/-- Modelled from the spec: the Flag Namer (section 4.3): a deterministic,
pure function of a leaf's structural path.  Every component is normalized
and the components are joined with dots after a leading double dash, i.e.
qualification by the full chain of enclosing field/variant names. -/
def flagOf (path : List String) : String :=
  ⟨'-' :: '-' :: List.intercalate ['.'] (path.map fun s => s.data.map normChar)⟩

/-- A token counts as a flag token when it starts with a double dash. -/
def isFlagToken (s : String) : Bool :=
  match s.data with
  | c1 :: c2 :: _ => c1 = '-' && c2 = '-'
  | _ => false

/-- A token starting with a single dash. -/
def startsWithDash (s : String) : Bool :=
  match s.data with
  | c :: _ => c = '-'
  | _ => false

/-! ### Decimal rendering and parsing of integers -/

/-- Digit character for a value below ten. -/
def digitChar (d : Nat) : Char :=
  if d = 0 then '0' else if d = 1 then '1' else if d = 2 then '2'
  else if d = 3 then '3' else if d = 4 then '4' else if d = 5 then '5'
  else if d = 6 then '6' else if d = 7 then '7' else if d = 8 then '8' else '9'

/-- Numeric value of a digit character. -/
def digitVal (c : Char) : Option Nat :=
  if c = '0' then some 0 else if c = '1' then some 1 else if c = '2' then some 2
  else if c = '3' then some 3 else if c = '4' then some 4 else if c = '5' then some 5
  else if c = '6' then some 6 else if c = '7' then some 7 else if c = '8' then some 8
  else if c = '9' then some 9 else none

/-- Big-endian decimal digits of a natural number, with fuel. -/
def natChars : Nat → Nat → List Char
  | 0, _ => []
  | fuel + 1, n =>
      if n < 10 then [digitChar n]
      else natChars fuel (n / 10) ++ [digitChar (n % 10)]

/-- Accumulating decimal reader. -/
def natFromChars (acc : Nat) : List Char → Option Nat
  | [] => some acc
  | c :: cs =>
      match digitVal c with
      | some d => natFromChars (acc * 10 + d) cs
      | none => none

/-- Decimal rendering of an integer. -/
def renderInt (n : Int) : String :=
  if n < 0 then ⟨'-' :: natChars (n.natAbs + 1) n.natAbs⟩
  else ⟨natChars (n.natAbs + 1) n.natAbs⟩

/-- Decimal parsing of an integer token. -/
def parseInt (s : String) : Option Int :=
  match s.data with
  | [] => none
  | c :: cs =>
      if c = '-' then
        match natFromChars 0 cs with
        | some m => some (-(m : Int))
        | none => none
      else
        match natFromChars 0 (c :: cs) with
        | some m => some ((m : Int))
        | none => none

/-! ### Leaf-level value parsers and rendering -/

/-- Scalar-like TypeNodes: primitives and literal sets. -/
def scalarish : TypeNode → Bool
  | .scalar _ => true
  | .lit _ => true
  | _ => false

def isRecordTy : TypeNode → Bool
  | .record _ => true
  | _ => false

/-- Modelled from the spec: the arity of a LeafArgument is derived from its
TypeNode: fixed length versus unbounded (section 4.2). -/
def arityOf : TypeNode → Arity
  | .seq _ (some n) => .exactlyN n
  | .seq _ none => .zeroOrMore
  | .tup es => .exactlyN es.length
  | .mapping _ _ => .zeroOrMore
  | _ => .exactlyN 1

/-- Canonical token for an atomic (scalar or literal) value. -/
def atomTok : TypeNode → Value → String
  | .scalar .pbool, .vbool b => if b then "true" else "false"
  | .scalar .pint, .vint n => renderInt n
  | .scalar .ptext, .vstr s => s
  | .lit _, .vstr s => s
  | _, _ => ""

def hasTypeAtom : TypeNode → Value → Bool
  | .scalar .pbool, .vbool _ => true
  | .scalar .pint, .vint _ => true
  | .scalar .ptext, .vstr _ => true
  | .lit as, .vstr s => as.contains s
  | _, _ => false

/-- Modelled from the spec: the element value parser of a LeafArgument;
a Literal mismatch is an error naming the allowed set (section 4.2). -/
def convertAtom (path : List String) : TypeNode → String → Except Err Value
  | .scalar .pbool, tok =>
      if tok = "true" then .ok (.vbool true)
      else if tok = "false" then .ok (.vbool false)
      else .error (.valueConversionFailed path tok (.scalar .pbool))
  | .scalar .pint, tok =>
      match parseInt tok with
      | some n => .ok (.vint n)
      | none => .error (.valueConversionFailed path tok (.scalar .pint))
  | .scalar .ptext, tok => .ok (.vstr tok)
  | .lit as, tok =>
      if as.contains tok then .ok (.vstr tok)
      else .error (.valueConversionFailed path tok (.lit as))
  | t, tok => .error (.valueConversionFailed path tok t)

/-! Token sequences of composite leaves. -/

def atomToks (t : TypeNode) : List Value → List String
  | [] => []
  | v :: vs => atomTok t v :: atomToks t vs

def tupToks : List TypeNode → List Value → List String
  | t :: ts, v :: vs => atomTok t v :: tupToks ts vs
  | _, _ => []

def pairToks (kt vt : TypeNode) : List (Value × Value) → List String
  | [] => []
  | (k, v) :: rest => atomTok kt k :: atomTok vt v :: pairToks kt vt rest

/-- The canonical token sequence a LeafArgument requires for a value. -/
def leafTokens : TypeNode → Value → List String
  | .opt _, .vnone => ["None"]
  | .opt t, .vsome w => [atomTok t w]
  | .seq t _, .vlist vs => atomToks t vs
  | .tup ts, .vtuple vs => tupToks ts vs
  | .mapping kt vt, .vmap kvs => pairToks kt vt kvs
  | t, v => [atomTok t v]

def convertAtoms (path : List String) (t : TypeNode) : List String → Except Err (List Value)
  | [] => .ok []
  | tok :: toks => do
      let v ← convertAtom path t tok
      let vs ← convertAtoms path t toks
      .ok (v :: vs)

def convertTup (path : List String) : List TypeNode → List String → Except Err (List Value)
  | [], [] => .ok []
  | t :: ts, tok :: toks => do
      let v ← convertAtom path t tok
      let vs ← convertTup path ts toks
      .ok (v :: vs)
  | ts, _ => .error (.valueConversionFailed path "" (.tup ts))

def convertPairs (path : List String) (kt vt : TypeNode) : List String → Except Err (List (Value × Value))
  | [] => .ok []
  | [tok] => .error (.valueConversionFailed path tok (.mapping kt vt))
  | ktok :: vtok :: toks => do
      let k ← convertAtom path kt ktok
      let v ← convertAtom path vt vtok
      let rest ← convertPairs path kt vt toks
      .ok ((k, v) :: rest)

/-- Modelled from the spec: the Instantiator's conversion of a leaf's raw
tokens into a typed value (section 4.5). -/
def convertLeaf (path : List String) : TypeNode → List String → Except Err Value
  | .opt t, [tok] =>
      if tok = "None" then .ok .vnone else (convertAtom path t tok).map .vsome
  | .seq t _, toks => (convertAtoms path t toks).map .vlist
  | .tup ts, toks => (convertTup path ts toks).map .vtuple
  | .mapping kt vt, toks => (convertPairs path kt vt toks).map .vmap
  | t, [tok] => convertAtom path t tok
  | t, _ => .error (.valueConversionFailed path "" t)

/-! Leaf-level typing, cleanliness, arity. -/

def allHasTypeAtom (t : TypeNode) : List Value → Bool
  | [] => true
  | v :: vs => hasTypeAtom t v && allHasTypeAtom t vs

def tupHasType : List TypeNode → List Value → Bool
  | [], [] => true
  | t :: ts, v :: vs => hasTypeAtom t v && tupHasType ts vs
  | _, _ => false

def pairsHasType (kt vt : TypeNode) : List (Value × Value) → Bool
  | [] => true
  | (k, v) :: rest => hasTypeAtom kt k && hasTypeAtom vt v && pairsHasType kt vt rest

/-- Membership of a value in a leaf-shaped TypeNode. -/
def hasTypeLeaf : TypeNode → Value → Bool
  | .opt _, .vnone => true
  | .opt t, .vsome w => hasTypeAtom t w
  | .seq t none, .vlist vs => allHasTypeAtom t vs
  | .seq t (some n), .vlist vs => (vs.length == n) && allHasTypeAtom t vs
  | .tup ts, .vtuple vs => tupHasType ts vs
  | .mapping kt vt, .vmap kvs => pairsHasType kt vt kvs
  | t, v => hasTypeAtom t v

def noFlagToks : List String → Bool
  | [] => true
  | tok :: toks => !isFlagToken tok && noFlagToks toks

/-- Unambiguous renderability at a leaf: an optional value must not render to
the None token, and elements of variable-arity leaves must not render to
flag-like tokens. -/
def cleanLeaf : TypeNode → Value → Bool
  | .opt t, .vsome w => !(atomTok t w == "None")
  | .seq t none, .vlist vs => noFlagToks (atomToks t vs)
  | .mapping kt vt, .vmap kvs => noFlagToks (pairToks kt vt kvs)
  | _, _ => true

def arityFits : Arity → List String → Bool
  | .exactlyN n, toks => toks.length == n
  | .zeroOrMore, toks => noFlagToks toks
  | .oneOrMore, toks => !toks.isEmpty && noFlagToks toks

/-! ### Schema Compiler -/

/-- Modelled from the spec: default resolution for a Record field: an
existing-value override wins over the intrinsic default, which wins over
MISSING; a MISSING sentinel in either position means "required"
(sections 3 and 4.2). -/
def resolveDefault (intrinsic existing : Option Value) : Option Value :=
  match existing with
  | some .vmissing => none
  | some v => some v
  | none =>
      match intrinsic with
      | some .vmissing => none
      | iv => iv

/-- A MISSING default is no default. -/
def squash : Option Value → Option Value
  | some .vmissing => none
  | d => d

/-- View an existing default as record fields. -/
def exRecord : Option Value → List (String × Value)
  | some (.vrecord fvs) => fvs
  | _ => []

/-- View an existing default as a selected union variant. -/
def exVariant : Option Value → Option (String × Value)
  | some (.vvariant n w) => some (n, w)
  | _ => none

/-- The existing default threaded into a union branch: the existing value if
it selects this branch, otherwise the branch's annotated default. -/
def branchEx (exsel : Option (String × Value)) (n : String) (vdef : Option Value) :
    Option Value :=
  match exsel with
  | some (m, w) => if m = n then some w else vdef
  | none => vdef

mutual
/-- Modelled from the spec: the Schema Compiler (section 4.2): recursively
turns a TypeNode plus an optional existing default value into an ArgumentTree.
Records become groups, unions become choice points (all variants must be
records), leaf-shaped nodes become leaves; sequences, tuples and mappings of
non-scalars, and un-introspectable types, are unsupported. -/
def compile : TypeNode → Option Value → List String → Except Err ArgTree
  | .scalar k, ex, path => .ok (.leaf ⟨path, .scalar k, squash ex⟩)
  | .lit as, ex, path => .ok (.leaf ⟨path, .lit as, squash ex⟩)
  | .opt t, ex, path =>
      if scalarish t then
        .ok (.leaf ⟨path, .opt t,
          match squash ex with
          | some v => some v
          | none => some .vnone⟩)
      else .error (.unsupportedTypeDescription path)
  | .seq t len, ex, path =>
      if scalarish t then .ok (.leaf ⟨path, .seq t len, squash ex⟩)
      else .error (.unsupportedTypeDescription path)
  | .tup ts, ex, path =>
      if ts.all scalarish then .ok (.leaf ⟨path, .tup ts, squash ex⟩)
      else .error (.unsupportedTypeDescription path)
  | .mapping kt vt, ex, path =>
      if scalarish kt && scalarish vt then .ok (.leaf ⟨path, .mapping kt vt, squash ex⟩)
      else .error (.unsupportedTypeDescription path)
  | .record fields, ex, path => do
      let cs ← compileFields fields (exRecord ex) path
      .ok (.group path cs)
  | .union variants, ex, path => do
      let bs ← compileVariants variants (exVariant ex) path
      .ok (.choice path bs
        (match exVariant ex with
         | some (n, _) => some n
         | none => none))
  | .foreignTy, _, path => .error (.unsupportedTypeDescription path)

def compileFields : List (String × TypeNode × Option Value) → List (String × Value) →
    List String → Except Err (List (String × ArgTree))
  | [], _, _ => .ok []
  | (name, ty, idef) :: rest, exfs, path => do
      let c ← compile ty (resolveDefault idef (alookup name exfs)) (path ++ [name])
      let cs ← compileFields rest exfs path
      .ok ((name, c) :: cs)

def compileVariants : List (String × Option String × Option Value × TypeNode) →
    Option (String × Value) → List String →
    Except Err (List (String × Option String × ArgTree))
  | [], _, _ => .ok []
  | (n, desc, vdef, vt) :: rest, exsel, path =>
      if n = "" then .error (.unsupportedTypeDescription path)
      else if startsWithDash n then .error (.unsupportedTypeDescription path)
      else if isRecordTy vt then do
        let bt ← compile vt (branchEx exsel n vdef) (path ++ [n])
        let bs ← compileVariants rest exsel path
        .ok ((n, desc, bt) :: bs)
      else .error (.unsupportedTypeDescription (path ++ [n]))
end

/-! ### ArgumentTree observers -/

mutual
def allPaths : ArgTree → List (List String)
  | .leaf i => [i.path]
  | .group p cs => p :: allPathsChildren cs
  | .choice p bs _ => p :: allPathsBranches bs
def allPathsChildren : List (String × ArgTree) → List (List String)
  | [] => []
  | (_, t) :: rest => allPaths t ++ allPathsChildren rest
def allPathsBranches : List (String × Option String × ArgTree) → List (List String)
  | [] => []
  | (_, _, t) :: rest => allPaths t ++ allPathsBranches rest
end

mutual
def allLeaves : ArgTree → List LeafInfo
  | .leaf i => [i]
  | .group _ cs => allLeavesChildren cs
  | .choice _ bs _ => allLeavesBranches bs
def allLeavesChildren : List (String × ArgTree) → List LeafInfo
  | [] => []
  | (_, t) :: rest => allLeaves t ++ allLeavesChildren rest
def allLeavesBranches : List (String × Option String × ArgTree) → List LeafInfo
  | [] => []
  | (_, _, t) :: rest => allLeaves t ++ allLeavesBranches rest
end

mutual
def allChoicePaths : ArgTree → List (List String)
  | .leaf _ => []
  | .group _ cs => allChoicePathsChildren cs
  | .choice p bs _ => p :: allChoicePathsBranches bs
def allChoicePathsChildren : List (String × ArgTree) → List (List String)
  | [] => []
  | (_, t) :: rest => allChoicePaths t ++ allChoicePathsChildren rest
def allChoicePathsBranches : List (String × Option String × ArgTree) → List (List String)
  | [] => []
  | (_, _, t) :: rest => allChoicePaths t ++ allChoicePathsBranches rest
end

/-- The paths of all leaves of a compiled tree. -/
def allLeafPaths (t : ArgTree) : List (List String) := (allLeaves t).map LeafInfo.path

/-- A pending ChoicePoint, as the Parser's loop tracks it. -/
structure ChoiceInfo where
  path : List String
  branches : List (String × Option String × ArgTree)
  defaultBranch : Option String
deriving Repr

mutual
/-- The leaves of a subtree reachable without crossing a ChoicePoint: the
flags active while parsing that subtree. -/
def flagMap : ArgTree → List LeafInfo
  | .leaf i => [i]
  | .group _ cs => flagMapChildren cs
  | .choice _ _ _ => []
def flagMapChildren : List (String × ArgTree) → List LeafInfo
  | [] => []
  | (_, t) :: rest => flagMap t ++ flagMapChildren rest
end

mutual
/-- The ChoicePoints of a subtree not nested below another ChoicePoint, in
declaration order. -/
def choicePointsOf : ArgTree → List ChoiceInfo
  | .leaf _ => []
  | .group _ cs => choicePointsChildren cs
  | .choice p bs d => [⟨p, bs, d⟩]
def choicePointsChildren : List (String × ArgTree) → List ChoiceInfo
  | [] => []
  | (_, t) :: rest => choicePointsOf t ++ choicePointsChildren rest
end

mutual
def treeSize : ArgTree → Nat
  | .leaf _ => 1
  | .group _ cs => 1 + treeSizeChildren cs
  | .choice _ bs _ => 1 + treeSizeBranches bs
def treeSizeChildren : List (String × ArgTree) → Nat
  | [] => 0
  | (_, t) :: rest => treeSize t + treeSizeChildren rest
def treeSizeBranches : List (String × Option String × ArgTree) → Nat
  | [] => 0
  | (_, _, t) :: rest => treeSize t + treeSizeBranches rest
end

/-! ### Parser -/

def lookupFlag : List LeafInfo → String → Option LeafInfo
  | [], _ => none
  | l :: rest, tok => if flagOf l.path = tok then some l else lookupFlag rest tok

/-- Modelled from the spec: token consumption within a leaf (section 4.4):
exactly N consumes exactly N tokens or fails; zero-or-more/one-or-more
consume until the next flag token or end of input.  Too few tokens is a
required-value failure at the leaf's path. -/
def consumeArity (path : List String) : Arity → List String →
    Except Err (List String × List String)
  | .exactlyN n, toks =>
      if n ≤ toks.length then .ok (toks.take n, toks.drop n)
      else .error (.requiredValueMissing path)
  | .zeroOrMore, toks =>
      .ok (toks.takeWhile (fun tk => !isFlagToken tk),
           toks.dropWhile (fun tk => !isFlagToken tk))
  | .oneOrMore, toks =>
      if (toks.takeWhile (fun tk => !isFlagToken tk)).isEmpty then
        .error (.requiredValueMissing path)
      else
        .ok (toks.takeWhile (fun tk => !isFlagToken tk),
             toks.dropWhile (fun tk => !isFlagToken tk))

def PV.addLeaf (pv : PV) (p : List String) (raw : List String) : PV :=
  ⟨(p, raw) :: pv.leafVals, pv.chosen⟩

def PV.addChoice (pv : PV) (p : List String) (n : String) : PV :=
  ⟨pv.leafVals, (p, n) :: pv.chosen⟩

def findBranch (n : String) (bs : List (String × Option String × ArgTree)) :
    Option (Option String × ArgTree) :=
  alookup n bs

/-- Modelled from the spec: the Parser (section 4.4): a depth-first,
left-to-right walk.  Flag tokens of the active scope may appear in any
order; at the first pending ChoicePoint the next token is matched against
variant names; when it matches none and a default-selected branch exists,
that branch is entered without consuming a token; when no default exists the
choice is a required-selection failure; a token matching nothing with no
pending choice is unrecognized.  The fuel argument only bounds the loop; the
parse entry point supplies enough for any input. -/
def parseLoop : Nat → List LeafInfo → List ChoiceInfo → PV → List String → Except Err PV
  | 0, _, _, _, _ => .error .internalError
  | _ + 1, _, [], pv, [] => .ok pv
  | fuel + 1, flags, c :: rest, pv, [] =>
      match c.defaultBranch with
      | some d =>
          match findBranch d c.branches with
          | some (_, bt) =>
              parseLoop fuel (flags ++ flagMap bt) (choicePointsOf bt ++ rest)
                (pv.addChoice c.path d) []
          | none => .error (.requiredValueMissing c.path)
      | none => .error (.requiredValueMissing c.path)
  | fuel + 1, flags, pending, pv, tok :: rest =>
      match lookupFlag flags tok with
      | some l =>
          match consumeArity l.path (arityOf l.ty) rest with
          | .ok (vals, rest2) => parseLoop fuel flags pending (pv.addLeaf l.path vals) rest2
          | .error e => .error e
      | none =>
          match pending with
          | c :: pend2 =>
              match findBranch tok c.branches with
              | some (_, bt) =>
                  parseLoop fuel (flags ++ flagMap bt) (choicePointsOf bt ++ pend2)
                    (pv.addChoice c.path tok) rest
              | none =>
                  match c.defaultBranch with
                  | some d =>
                      match findBranch d c.branches with
                      | some (_, bt) =>
                          parseLoop fuel (flags ++ flagMap bt) (choicePointsOf bt ++ pend2)
                            (pv.addChoice c.path d) (tok :: rest)
                      | none => .error (.requiredValueMissing c.path)
                  | none => .error (.requiredValueMissing c.path)
          | [] => .error (.unrecognizedToken tok)

/-- Modelled from the spec: parse an input token list against an
ArgumentTree, producing ParsedValues. -/
def parse (tree : ArgTree) (tokens : List String) : Except Err PV :=
  parseLoop (tokens.length + treeSize tree + 1) (flagMap tree) (choicePointsOf tree)
    ⟨[], []⟩ tokens

/-! ### Instantiator -/

mutual
/-- Modelled from the spec: the Instantiator (section 4.5): groups assemble
records from their children, choice points instantiate only the chosen
branch and tag the result with the variant name, leaves convert their raw
tokens or fall back to their default; a leaf that is neither supplied nor
defaulted is a required-value failure at its flag path. -/
def instantiate : ArgTree → PV → Except Err Value
  | .leaf i, pv =>
      match alookup i.path pv.leafVals with
      | some raw => convertLeaf i.path i.ty raw
      | none =>
          match i.dflt with
          | some d => .ok d
          | none => .error (.requiredValueMissing i.path)
  | .group _ cs, pv => do
      let fvs ← instChildren cs pv
      .ok (.vrecord fvs)
  | .choice p bs _, pv =>
      match alookup p pv.chosen with
      | some n => instBranches bs n p pv
      | none => .error (.requiredValueMissing p)
def instChildren : List (String × ArgTree) → PV → Except Err (List (String × Value))
  | [], _ => .ok []
  | (name, t) :: rest, pv => do
      let v ← instantiate t pv
      let vs ← instChildren rest pv
      .ok ((name, v) :: vs)
def instBranches : List (String × Option String × ArgTree) → String → List String →
    PV → Except Err Value
  | [], _, p, _ => .error (.requiredValueMissing p)
  | (m, _, bt) :: rest, n, p, pv =>
      if m = n then do
        let v ← instantiate bt pv
        .ok (.vvariant n v)
      else instBranches rest n p pv
end

/-! ### Entry point -/

/-- Modelled from the spec: compilation of a root type, including the flag
path uniqueness check (section 3 invariant): every node's flag token must be
distinct, otherwise compilation fails. -/
def compileRoot (t : TypeNode) (ex : Option Value) : Except Err ArgTree := do
  let tree ← compile t ex []
  if ((allPaths tree).map flagOf).Nodup then .ok tree
  else .error (.unsupportedTypeDescription [])

/-- Modelled from the spec: the Entry Point cli: Adapter output (a TypeNode)
plus an optional existing default value are compiled, the token list is
parsed, and the result is instantiated (section 2). -/
def cli (t : TypeNode) (ex : Option Value) (tokens : List String) : Except Err Value := do
  let tree ← compileRoot t ex
  let pv ← parse tree tokens
  instantiate tree pv

/-! ### Typing of values against TypeNodes and ArgumentTrees -/

mutual
/-- Membership of a value in a TypeNode. -/
def hasType : TypeNode → Value → Bool
  | .record fields, .vrecord fvs => hasTypeFields fields fvs
  | .record _, _ => false
  | .union vars, .vvariant n w => hasTypeVariants vars n w
  | .union _, _ => false
  | .foreignTy, _ => false
  | t, v => hasTypeLeaf t v
def hasTypeFields : List (String × TypeNode × Option Value) → List (String × Value) → Bool
  | [], [] => true
  | (name, ty, _) :: rest, (fn, v) :: fvs =>
      (name == fn) && hasType ty v && hasTypeFields rest fvs
  | _, _ => false
def hasTypeVariants : List (String × Option String × Option Value × TypeNode) →
    String → Value → Bool
  | [], _, _ => false
  | (m, _, _, vt) :: rest, n, w =>
      if m = n then hasType vt w else hasTypeVariants rest n w
end

mutual
/-- A value renders unambiguously for a TypeNode. -/
def cleanVal : TypeNode → Value → Bool
  | .record fields, .vrecord fvs => cleanFields fields fvs
  | .union vars, .vvariant n w => cleanVariants vars n w
  | t, v => cleanLeaf t v
def cleanFields : List (String × TypeNode × Option Value) → List (String × Value) → Bool
  | _, [] => true
  | [], _ => true
  | (_, ty, _) :: rest, (_, v) :: fvs => cleanVal ty v && cleanFields rest fvs
def cleanVariants : List (String × Option String × Option Value × TypeNode) →
    String → Value → Bool
  | [], _, _ => true
  | (m, _, _, vt) :: rest, n, w =>
      if m = n then cleanVal vt w else cleanVariants rest n w
end

mutual
/-- Membership of a value in a compiled ArgumentTree. -/
def fitsTree : ArgTree → Value → Bool
  | .leaf i, v => hasTypeLeaf i.ty v
  | .group _ cs, .vrecord fvs => fitsChildren cs fvs
  | .group _ _, _ => false
  | .choice _ bs _, .vvariant n w => fitsBranches bs n w
  | .choice _ _ _, _ => false
def fitsChildren : List (String × ArgTree) → List (String × Value) → Bool
  | [], [] => true
  | (name, t) :: rest, (fn, v) :: fvs =>
      (name == fn) && fitsTree t v && fitsChildren rest fvs
  | _, _ => false
def fitsBranches : List (String × Option String × ArgTree) → String → Value → Bool
  | [], _, _ => false
  | (m, _, bt) :: rest, n, w => if m = n then fitsTree bt w else fitsBranches rest n w
end

mutual
/-- Unambiguous renderability of a value against an ArgumentTree. -/
def cleanTree : ArgTree → Value → Bool
  | .leaf i, v => cleanLeaf i.ty v
  | .group _ cs, .vrecord fvs => cleanChildren cs fvs
  | .group _ _, _ => true
  | .choice _ bs _, .vvariant n w => cleanBranches bs n w
  | .choice _ _ _, _ => true
def cleanChildren : List (String × ArgTree) → List (String × Value) → Bool
  | _, [] => true
  | [], _ => true
  | (_, t) :: rest, (_, v) :: fvs => cleanTree t v && cleanChildren rest fvs
def cleanBranches : List (String × Option String × ArgTree) → String → Value → Bool
  | [], _, _ => true
  | (m, _, bt) :: rest, n, w => if m = n then cleanTree bt w else cleanBranches rest n w
end

mutual
/-- Wellformedness of a compiled tree: ChoicePoint branch names are nonempty
and do not look like flags. -/
def wfTree : ArgTree → Bool
  | .leaf _ => true
  | .group _ cs => wfChildren cs
  | .choice _ bs _ => wfBranches bs
def wfChildren : List (String × ArgTree) → Bool
  | [] => true
  | (_, t) :: rest => wfTree t && wfChildren rest
def wfBranches : List (String × Option String × ArgTree) → Bool
  | [] => true
  | (m, _, bt) :: rest =>
      !(m == "") && !startsWithDash m && wfTree bt && wfBranches rest
end

/-! ### Canonical rendering of a value into tokens -/

mutual
/-- Depth-first variant-selector tokens a value requires. -/
def vcSels : ArgTree → Value → List String
  | .leaf _, _ => []
  | .group _ cs, .vrecord fvs => vcSelsChildren cs fvs
  | .group _ _, _ => []
  | .choice _ bs _, .vvariant n w => vcSelsBranches bs n w
  | .choice _ _ _, _ => []
def vcSelsChildren : List (String × ArgTree) → List (String × Value) → List String
  | (_, t) :: rest, (_, v) :: fvs => vcSels t v ++ vcSelsChildren rest fvs
  | _, _ => []
def vcSelsBranches : List (String × Option String × ArgTree) → String → Value → List String
  | [], _, _ => []
  | (m, _, bt) :: rest, n, w =>
      if m = n then n :: vcSels bt w else vcSelsBranches rest n w
end

mutual
/-- The leaves activated by the chosen branches of a value. -/
def vcFlags : ArgTree → Value → List LeafInfo
  | .leaf _, _ => []
  | .group _ cs, .vrecord fvs => vcFlagsChildren cs fvs
  | .group _ _, _ => []
  | .choice _ bs _, .vvariant n w => vcFlagsBranches bs n w
  | .choice _ _ _, _ => []
def vcFlagsChildren : List (String × ArgTree) → List (String × Value) → List LeafInfo
  | (_, t) :: rest, (_, v) :: fvs => vcFlags t v ++ vcFlagsChildren rest fvs
  | _, _ => []
def vcFlagsBranches : List (String × Option String × ArgTree) → String → Value → List LeafInfo
  | [], _, _ => []
  | (m, _, bt) :: rest, n, w =>
      if m = n then flagMap bt ++ vcFlags bt w else vcFlagsBranches rest n w
end

mutual
/-- The ChoicePoint selections a value requires, depth first. -/
def vcChoices : ArgTree → Value → List (List String × String)
  | .leaf _, _ => []
  | .group _ cs, .vrecord fvs => vcChoicesChildren cs fvs
  | .group _ _, _ => []
  | .choice p bs _, .vvariant n w => vcChoicesBranches p bs n w
  | .choice _ _ _, _ => []
def vcChoicesChildren : List (String × ArgTree) → List (String × Value) →
    List (List String × String)
  | (_, t) :: rest, (_, v) :: fvs => vcChoices t v ++ vcChoicesChildren rest fvs
  | _, _ => []
def vcChoicesBranches : List String → List (String × Option String × ArgTree) →
    String → Value → List (List String × String)
  | _, [], _, _ => []
  | p, (m, _, bt) :: rest, n, w =>
      if m = n then (p, n) :: vcChoices bt w else vcChoicesBranches p rest n w
end

mutual
/-- The leaves a value populates, each with its canonical raw tokens. -/
def vcLeafItems : ArgTree → Value → List (LeafInfo × List String)
  | .leaf i, v => [(i, leafTokens i.ty v)]
  | .group _ cs, .vrecord fvs => vcLeafItemsChildren cs fvs
  | .group _ _, _ => []
  | .choice _ bs _, .vvariant n w => vcLeafItemsBranches bs n w
  | .choice _ _ _, _ => []
def vcLeafItemsChildren : List (String × ArgTree) → List (String × Value) →
    List (LeafInfo × List String)
  | (_, t) :: rest, (_, v) :: fvs => vcLeafItems t v ++ vcLeafItemsChildren rest fvs
  | _, _ => []
def vcLeafItemsBranches : List (String × Option String × ArgTree) → String → Value →
    List (LeafInfo × List String)
  | [], _, _ => []
  | (m, _, bt) :: rest, n, w =>
      if m = n then vcLeafItems bt w else vcLeafItemsBranches rest n w
end

/-- Flag-and-values token runs of a list of leaf items. -/
def flatTokens : List (LeafInfo × List String) → List String
  | [] => []
  | (i, raw) :: rest => flagOf i.path :: (raw ++ flatTokens rest)

/-- The exact token sequence a compiled ArgumentTree requires for a value:
all variant selectors depth-first, then every leaf's flag and canonical raw
tokens. -/
def render (tree : ArgTree) (v : Value) : List String :=
  vcSels tree v ++ flatTokens (vcLeafItems tree v)

/-- The dispatch phase: consuming the selector tokens sels from the pending
ChoicePoints records the choices ch, activates the leaves fl, and exhausts
the pending list. -/
inductive DPhase : List ChoiceInfo → List String → List LeafInfo →
    List (List String × String) → Prop where
  | nil : DPhase [] [] [] []
  | cons {c : ChoiceInfo} {rest : List ChoiceInfo} {n : String} {desc : Option String}
      {bt : ArgTree} {sels : List String} {fl : List LeafInfo}
      {ch : List (List String × String)} :
      findBranch n c.branches = some (desc, bt) →
      startsWithDash n = false →
      DPhase (choicePointsOf bt ++ rest) sels fl ch →
      DPhase (c :: rest) (n :: sels) (flagMap bt ++ fl) ((c.path, n) :: ch)

/-! ### extras: preset sugar over the union path -/

namespace extras

/-- Modelled from the spec: extras.subcommand_type_from_defaults, the
preset/default supplier of section 6: from a mapping of names to fully-formed
default values of a common record type, and a matching mapping of
descriptions, build the union whose variants are that record annotated per
name with the name, that default, and that description. -/
def subcommand_type_from_defaults (base : TypeNode) (defaults : List (String × Value))
    (descriptions : List (String × String)) : TypeNode :=
  .union (go defaults)
where go : List (String × Value) → List (String × Option String × Option Value × TypeNode)
  | [] => []
  | (n, v) :: rest => (n, alookup n descriptions, some v, base) :: go rest

end extras

/-- The explicit Union the example displays as equivalent: the record type
annotated per name with that name, default, and description. -/
def explicitSubcommandUnion (base : TypeNode) (defaults : List (String × Value))
    (descriptions : List (String × String)) : TypeNode :=
  .union (defaults.map fun pr => (pr.1, alookup pr.1 descriptions, some pr.2, base))

/-! ### Adapter for a plain mapping type with an existing default -/

/-- The scalar kind of a scalar value. -/
def scalarKind : Value → Option PrimKind
  | .vbool _ => some .pbool
  | .vint _ => some .pint
  | .vstr _ => some .ptext
  | _ => none

def allKind (k : PrimKind) : List Value → Bool
  | [] => true
  | v :: vs =>
      (match scalarKind v with
       | some k2 => decide (k2 = k)
       | none => false) && allKind k vs

/-- Element kind of a homogeneous scalar list. -/
def listElemKind : List Value → Option PrimKind
  | [] => some .ptext
  | v :: vs =>
      match scalarKind v with
      | some k => if allKind k vs then some k else none
      | none => none

def isMapVal : Value → Bool
  | .vmap _ => true
  | _ => false

mutual
/-- Modelled from the spec: the Adapter's treatment of a plain mapping type
with an existing nested-mapping default (sections 4.1 and 6): the default's
structure induces a record TypeNode; every scalar or scalar-sequence entry
becomes a leaf field whose intrinsic default is that entry, and every nested
mapping becomes a nested record. -/
def dictTypeNode : Value → Option TypeNode
  | .vmap kvs =>
      match dictFields kvs with
      | some fields => some (.record fields)
      | none => none
  | _ => none
def dictFields : List (Value × Value) → Option (List (String × TypeNode × Option Value))
  | [] => some []
  | (.vstr s, v) :: rest =>
      match entryType v with
      | some ty =>
          match dictFields rest with
          | some fs => some ((s, ty, if isMapVal v then none else some v) :: fs)
          | none => none
      | none => none
  | _ :: _ => none
def entryType : Value → Option TypeNode
  | .vbool _ => some (.scalar .pbool)
  | .vint _ => some (.scalar .pint)
  | .vstr _ => some (.scalar .ptext)
  | .vlist vs =>
      match listElemKind vs with
      | some k => some (.seq (.scalar k) none)
      | none => none
  | .vmap kvs =>
      match dictFields kvs with
      | some fields => some (.record fields)
      | none => none
  | _ => none
end

mutual
/-- Convert an instantiated record value back into a nested mapping. -/
def recordToMap : Value → Value
  | .vrecord fvs => .vmap (fieldsToPairs fvs)
  | v => v
def fieldsToPairs : List (String × Value) → List (Value × Value)
  | [] => []
  | (k, v) :: rest => (.vstr k, recordToMap v) :: fieldsToPairs rest
end

/-- Lookup of a string key in a mapping value. -/
def strLookup (k : String) : List (Value × Value) → Option Value
  | [] => none
  | (.vstr s, v) :: rest => if s = k then some v else strLookup k rest
  | _ :: rest => strLookup k rest

/-- Entry of a nested mapping or record value at a path of string keys. -/
def valueAt : Value → List String → Option Value
  | v, [] => some v
  | .vrecord fvs, k :: p =>
      match alookup k fvs with
      | some w => valueAt w p
      | none => none
  | .vmap kvs, k :: p =>
      match strLookup k kvs with
      | some w => valueAt w p
      | none => none
  | _, _ :: _ => none

mutual
/-- The relative paths of the scalar and sequence entries below a value: a
nested mapping contributes its entries' paths, anything else is itself an
entry. -/
def dictEntryPaths : Value → List (List String)
  | .vmap kvs => dictPathsEntries kvs
  | _ => [[]]
def dictPathsEntries : List (Value × Value) → List (List String)
  | [] => []
  | (.vstr s, v) :: rest =>
      (dictEntryPaths v).map (fun p => s :: p) ++ dictPathsEntries rest
  | _ :: rest => dictPathsEntries rest
end

/-- The paths of the scalar and sequence entries of a nested mapping. -/
def dictPaths (v : Value) : List (List String) :=
  match v with
  | .vmap kvs => dictPathsEntries kvs
  | _ => []

/-! ### Required leaves, unsupported constructs, and example data -/

/-- Leaf-shaped TypeNodes that stay required when their resolved default is
MISSING (an Optional leaf never does: it defaults to the absent value). -/
def plainLeaf : TypeNode → Bool
  | .scalar _ => true
  | .lit _ => true
  | .seq t _ => scalarish t
  | .tup ts => ts.all scalarish
  | .mapping kt vt => scalarish kt && scalarish vt
  | _ => false

mutual
/-- A TypeNode contains a construct with no defined mapping: an
un-introspectable opaque type, a non-scalar sequence/tuple/mapping element,
or a union variant that is not a record. -/
def hasUnsupported : TypeNode → Bool
  | .scalar _ => false
  | .lit _ => false
  | .opt t => !scalarish t
  | .seq t _ => !scalarish t
  | .tup ts => !ts.all scalarish
  | .mapping kt vt => !(scalarish kt && scalarish vt)
  | .record fields => hasUnsupportedFields fields
  | .union vars => hasUnsupportedVariants vars
  | .foreignTy => true
def hasUnsupportedFields : List (String × TypeNode × Option Value) → Bool
  | [] => false
  | (_, ty, _) :: rest => hasUnsupported ty || hasUnsupportedFields rest
def hasUnsupportedVariants : List (String × Option String × Option Value × TypeNode) → Bool
  | [] => false
  | (_, _, _, vt) :: rest => !isRecordTy vt || hasUnsupported vt || hasUnsupportedVariants rest
end

/-! ### Example data for the claims -/

def tyA : TypeNode := .record [("x", .scalar .pint, some (.vint 0))]

def tyB : TypeNode := .record [("y", .scalar .ptext, none)]

def tyUnionAB : TypeNode := .union [("A", none, none, tyA), ("B", none, none, tyB)]

def btB : ArgTree := .group ["B"] [("y", .leaf ⟨["B", "y"], .scalar .ptext, none⟩)]

def treeAB : ArgTree :=
  .choice [] [("A", none, .group ["A"] [("x", .leaf ⟨["A", "x"], .scalar .pint,
    some (.vint 0)⟩)]), ("B", none, btB)] none

def tyOptText : TypeNode := .record [("a", .opt (.scalar .ptext), none)]

def valNoneStr : Value := .vrecord [("a", .vsome (.vstr "None"))]

def treeOptText : ArgTree :=
  .group [] [("a", .leaf ⟨["a"], .opt (.scalar .ptext), some .vnone⟩)]

def tyLitRec : TypeNode := .record [("dataset", .lit ["mnist", "imagenet-50"], some MISSING)]

def tySeq3 : TypeNode := .record [("v", .seq (.scalar .pint) (some 3), some MISSING)]

def yamlExample : Value := .vmap [
  (.vstr "exp_name", .vstr "test"),
  (.vstr "optimizer", .vmap [(.vstr "type", .vstr "adam")]),
  (.vstr "training", .vmap [
     (.vstr "batch_size", .vint 32),
     (.vstr "num_steps", .vint 10000),
     (.vstr "checkpoint_steps", .vlist [.vint 500, .vint 1000, .vint 1500])])]

def yamlT : TypeNode := .record [
  ("exp_name", .scalar .ptext, some (.vstr "test")),
  ("optimizer", .record [("type", .scalar .ptext, some (.vstr "adam"))], none),
  ("training", .record [
     ("batch_size", .scalar .pint, some (.vint 32)),
     ("num_steps", .scalar .pint, some (.vint 10000)),
     ("checkpoint_steps", .seq (.scalar .pint) none,
       some (.vlist [.vint 500, .vint 1000, .vint 1500]))], none)]

def yamlTokens : List String := ["--training.checkpoint-steps", "300", "1000", "9000"]

def yamlRes : Value := .vrecord [
  ("exp_name", .vstr "test"),
  ("optimizer", .vrecord [("type", .vstr "adam")]),
  ("training", .vrecord [
     ("batch_size", .vint 32),
     ("num_steps", .vint 10000),
     ("checkpoint_steps", .vlist [.vint 300, .vint 1000, .vint 9000])])]

def yamlOverridden : Value := .vmap [
  (.vstr "exp_name", .vstr "test"),
  (.vstr "optimizer", .vmap [(.vstr "type", .vstr "adam")]),
  (.vstr "training", .vmap [
     (.vstr "batch_size", .vint 32),
     (.vstr "num_steps", .vint 10000),
     (.vstr "checkpoint_steps", .vlist [.vint 300, .vint 1000, .vint 9000])])]

theorem alookup_eq_some_of_mem {κ α : Type} [DecidableEq κ] {k : κ} {a : α}
    {l : List (κ × α)} (hnd : (l.map Prod.fst).Nodup) (hm : (k, a) ∈ l) :
    alookup k l = some a := by
  induction l with
  | nil => cases hm
  | cons hd tl ih =>
      obtain ⟨k', a'⟩ := hd
      simp only [List.map_cons, List.nodup_cons] at hnd
      rcases List.mem_cons.mp hm with h | h
      · cases h
        simp [alookup]
      · have hk : k' ≠ k := by
          intro he
          exact hnd.1 (he ▸ (List.mem_map.mpr ⟨(k, a), h, rfl⟩))
        simp [alookup, hk, ih hnd.2 h]

theorem alookup_mem {κ α : Type} [DecidableEq κ] {k : κ} {a : α}
    {l : List (κ × α)} (h : alookup k l = some a) : (k, a) ∈ l := by
  induction l with
  | nil => simp [alookup] at h
  | cons hd tl ih =>
      obtain ⟨k', a'⟩ := hd
      by_cases hk : k' = k
      · subst hk
        simp [alookup] at h
        simp [h]
      · simp [alookup, hk] at h
        exact List.mem_cons_of_mem _ (ih h)

theorem isFlagToken_flagOf (p : List String) : isFlagToken (flagOf p) = true := rfl

theorem flagOf_ne_of_not_dash {n : String} (h : startsWithDash n = false)
    (p : List String) : flagOf p ≠ n := by
  intro he
  have : startsWithDash (flagOf p) = true := rfl
  rw [he] at this
  rw [this] at h
  cases h

theorem digitVal_digitChar {d : Nat} (h : d < 10) : digitVal (digitChar d) = some d := by
  interval_cases d <;> rfl

theorem natFromChars_append (acc : Nat) (xs ys : List Char) :
    natFromChars acc (xs ++ ys) =
      match natFromChars acc xs with
      | some m => natFromChars m ys
      | none => none := by
  induction xs generalizing acc with
  | nil => simp [natFromChars]
  | cons c cs ih =>
      simp only [List.cons_append, natFromChars]
      cases digitVal c with
      | none => rfl
      | some d => exact ih (acc * 10 + d)

theorem natFromChars_natChars {fuel n : Nat} (h : n < fuel) :
    natFromChars 0 (natChars fuel n) = some n := by
  induction fuel generalizing n with
  | zero => omega
  | succ f ih =>
      by_cases hn : n < 10
      · simp [natChars, hn, natFromChars, digitVal_digitChar hn]
      · have hdiv : n / 10 < f := by omega
        simp only [natChars, hn, if_false]
        rw [natFromChars_append, ih hdiv]
        have hm : n % 10 < 10 := Nat.mod_lt _ (by omega)
        simp [natFromChars, digitVal_digitChar hm]
        omega

theorem natChars_ne_nil {fuel n : Nat} (h : n < fuel) : natChars fuel n ≠ [] := by
  cases fuel with
  | zero => omega
  | succ f =>
      by_cases hn : n < 10 <;> simp [natChars, hn]

theorem natChars_head_digit {fuel n : Nat} (h : n < fuel) :
    ∃ c cs, natChars fuel n = c :: cs ∧ digitVal c ≠ none := by
  cases fuel with
  | zero => omega
  | succ f =>
      by_cases hn : n < 10
      · refine ⟨digitChar n, [], by simp [natChars, hn], ?_⟩
        rw [digitVal_digitChar hn]
        simp
      · simp only [natChars, hn, if_false]
        have hdiv : n / 10 < f := by omega
        obtain ⟨c, cs, hc, hd⟩ := natChars_head_digit hdiv
        exact ⟨c, cs ++ [digitChar (n % 10)], by simp [hc], hd⟩

theorem digitVal_ne_dash {c : Char} (hd : digitVal c ≠ none) : c ≠ '-' := by
  intro he
  rw [he] at hd
  exact hd rfl

theorem parseInt_renderInt (n : Int) : parseInt (renderInt n) = some n := by
  by_cases hn : n < 0
  · have h1 : n.natAbs < n.natAbs + 1 := Nat.lt_succ_self _
    obtain ⟨c, cs, hc, hd⟩ := natChars_head_digit h1
    simp only [renderInt, hn, if_true, parseInt, hc]
    rw [← hc]
    simp only [if_pos rfl, natFromChars_natChars h1]
    have he : -((n.natAbs : Int)) = n := by omega
    rw [he]
  · have h1 : n.natAbs < n.natAbs + 1 := Nat.lt_succ_self _
    obtain ⟨c, cs, hc, hd⟩ := natChars_head_digit h1
    have hdc : c ≠ '-' := digitVal_ne_dash hd
    simp only [renderInt, hn, if_false, parseInt, hc, hdc, if_neg hdc]
    rw [← hc, natFromChars_natChars h1]
    have he : ((n.natAbs : Int)) = n := by omega
    have hm : (match some n.natAbs with
        | some m => some ((m : Int))
        | none => none) = some ((n.natAbs : Int)) := rfl
    rw [hm, he]

theorem renderInt_not_flag (n : Int) : isFlagToken (renderInt n) = false := by
  by_cases hn : n < 0
  · have h1 : n.natAbs < n.natAbs + 1 := Nat.lt_succ_self _
    obtain ⟨c, cs, hc, hd⟩ := natChars_head_digit h1
    have hdc : c ≠ '-' := digitVal_ne_dash hd
    simp only [renderInt, hn, if_true, isFlagToken, hc]
    simp [hdc]
  · have h1 : n.natAbs < n.natAbs + 1 := Nat.lt_succ_self _
    obtain ⟨c, cs, hc, hd⟩ := natChars_head_digit h1
    have hdc : c ≠ '-' := digitVal_ne_dash hd
    simp only [renderInt, hn, if_false, isFlagToken, hc]
    cases cs with
    | nil => rfl
    | cons c2 cs2 => simp [hdc]

theorem convertAtom_atomTok {t : TypeNode} {v : Value} (path : List String)
    (h : hasTypeAtom t v = true) : convertAtom path t (atomTok t v) = .ok v := by
  cases t with
  | scalar k =>
      cases k with
      | pbool =>
          cases v with
          | vbool b => cases b <;> rfl
          | _ => simp [hasTypeAtom] at h
      | pint =>
          cases v with
          | vint n => simp [atomTok, convertAtom, parseInt_renderInt]
          | _ => simp [hasTypeAtom] at h
      | ptext =>
          cases v with
          | vstr s => rfl
          | _ => simp [hasTypeAtom] at h
  | lit as =>
      cases v with
      | vstr s => simp [hasTypeAtom] at h; simp [atomTok, convertAtom, h]
      | _ => simp [hasTypeAtom] at h
  | _ => simp [hasTypeAtom] at h

theorem except_bind_ok {ε α β : Type} (a : α) (f : α → Except ε β) :
    ((Except.ok a : Except ε α) >>= f) = f a := rfl

theorem except_map_ok {ε α β : Type} (f : α → β) (a : α) :
    Except.map f (Except.ok a : Except ε α) = .ok (f a) := rfl

theorem contains_true_iff {as : List String} {s : String} :
    as.contains s = true ↔ s ∈ as :=
  ⟨List.mem_of_elem_eq_true, List.elem_eq_true_of_mem⟩

theorem convertAtoms_atomToks {t : TypeNode} {vs : List Value} (path : List String)
    (h : allHasTypeAtom t vs = true) :
    convertAtoms path t (atomToks t vs) = .ok vs := by
  induction vs with
  | nil => rfl
  | cons v vs ih =>
      simp only [allHasTypeAtom, Bool.and_eq_true] at h
      simp [atomToks, convertAtoms, convertAtom_atomTok path h.1, ih h.2, except_bind_ok]

theorem convertTup_tupToks {ts : List TypeNode} {vs : List Value} (path : List String)
    (h : tupHasType ts vs = true) :
    convertTup path ts (tupToks ts vs) = .ok vs := by
  induction ts generalizing vs with
  | nil => cases vs with
      | nil => rfl
      | cons v vs => simp [tupHasType] at h
  | cons t ts ih =>
      cases vs with
      | nil => simp [tupHasType] at h
      | cons v vs =>
          simp only [tupHasType, Bool.and_eq_true] at h
          simp [tupToks, convertTup, convertAtom_atomTok path h.1, ih h.2, except_bind_ok]

theorem convertPairs_pairToks {kt vt : TypeNode} {kvs : List (Value × Value)}
    (path : List String) (h : pairsHasType kt vt kvs = true) :
    convertPairs path kt vt (pairToks kt vt kvs) = .ok kvs := by
  induction kvs with
  | nil => rfl
  | cons kv rest ih =>
      obtain ⟨k, v⟩ := kv
      simp only [pairsHasType, Bool.and_eq_true, and_assoc] at h
      simp [pairToks, convertPairs, convertAtom_atomTok path h.1,
        convertAtom_atomTok path h.2.1, ih h.2.2, except_bind_ok]

/-- Leaf-level round trip: converting the canonical tokens of a well-typed,
cleanly renderable value yields the value back. -/
theorem convertLeaf_leafTokens {t : TypeNode} {v : Value} (path : List String)
    (ht : hasTypeLeaf t v = true) (hcl : cleanLeaf t v = true) :
    convertLeaf path t (leafTokens t v) = .ok v := by
  cases t with
  | opt t =>
      cases v with
      | vnone => rfl
      | vsome w =>
          simp only [hasTypeLeaf] at ht
          simp only [cleanLeaf, Bool.not_eq_true'] at hcl
          have hne : atomTok t w ≠ "None" := by
            intro he
            rw [he] at hcl
            simp at hcl
          simp [leafTokens, convertLeaf, hne, convertAtom_atomTok path ht, except_map_ok]
      | _ => simp [hasTypeLeaf, hasTypeAtom] at ht
  | seq t len =>
      cases v with
      | vlist vs =>
          have hall : allHasTypeAtom t vs = true := by
            cases len with
            | none => exact ht
            | some n =>
                simp only [hasTypeLeaf, Bool.and_eq_true] at ht
                exact ht.2
          simp [leafTokens, convertLeaf, convertAtoms_atomToks path hall, except_map_ok]
      | _ => cases len <;> simp [hasTypeLeaf, hasTypeAtom] at ht
  | tup ts =>
      cases v with
      | vtuple vs => simp [leafTokens, convertLeaf, convertTup_tupToks path ht, except_map_ok]
      | _ => simp [hasTypeLeaf, hasTypeAtom] at ht
  | mapping kt vt =>
      cases v with
      | vmap kvs => simp [leafTokens, convertLeaf, convertPairs_pairToks path ht, except_map_ok]
      | _ => simp [hasTypeLeaf, hasTypeAtom] at ht
  | scalar k =>
      have := convertAtom_atomTok (t := .scalar k) (v := v) path
      cases k <;> cases v <;> simp_all [hasTypeLeaf, leafTokens, convertLeaf, hasTypeAtom]
  | lit as =>
      cases v with
      | vstr s =>
          simp only [hasTypeLeaf, hasTypeAtom] at ht
          simp [leafTokens, convertLeaf, convertAtom, atomTok, ht, contains_true_iff.mp ht]
      | _ => simp [hasTypeLeaf, hasTypeAtom] at ht
  | record fields => simp [hasTypeLeaf, hasTypeAtom] at ht
  | union vars => simp [hasTypeLeaf, hasTypeAtom] at ht
  | foreignTy => simp [hasTypeLeaf, hasTypeAtom] at ht

theorem atomToks_length (t : TypeNode) (vs : List Value) :
    (atomToks t vs).length = vs.length := by
  induction vs with
  | nil => rfl
  | cons v vs ih => simp [atomToks, ih]

theorem tupToks_length {ts : List TypeNode} {vs : List Value}
    (h : tupHasType ts vs = true) : (tupToks ts vs).length = ts.length := by
  induction ts generalizing vs with
  | nil => cases vs with
      | nil => rfl
      | cons v vs => simp [tupHasType] at h
  | cons t ts ih =>
      cases vs with
      | nil => simp [tupHasType] at h
      | cons v vs =>
          simp only [tupHasType, Bool.and_eq_true] at h
          simp [tupToks, ih h.2]

/-- Canonical leaf tokens satisfy the leaf's arity. -/
theorem leafTokens_arity {t : TypeNode} {v : Value}
    (ht : hasTypeLeaf t v = true) (hcl : cleanLeaf t v = true) :
    arityFits (arityOf t) (leafTokens t v) = true := by
  cases t with
  | opt t => cases v <;> simp_all [hasTypeLeaf, hasTypeAtom, arityOf, leafTokens, arityFits]
  | seq t len =>
      cases v with
      | vlist vs =>
          cases len with
          | none => simpa [arityOf, leafTokens, arityFits, cleanLeaf] using hcl
          | some n =>
              simp only [hasTypeLeaf, Bool.and_eq_true] at ht
              simp [arityOf, leafTokens, arityFits, atomToks_length, ht.1]
      | _ => cases len <;> simp [hasTypeLeaf, hasTypeAtom] at ht
  | tup ts =>
      cases v with
      | vtuple vs => simp [arityOf, leafTokens, arityFits, tupToks_length ht]
      | _ => simp [hasTypeLeaf, hasTypeAtom] at ht
  | mapping kt vt =>
      cases v with
      | vmap kvs => simpa [arityOf, leafTokens, arityFits, cleanLeaf] using hcl
      | _ => simp [hasTypeLeaf, hasTypeAtom] at ht
  | scalar k => cases k <;> cases v <;> simp_all [hasTypeLeaf, hasTypeAtom, arityOf, leafTokens, arityFits]
  | lit as => cases v <;> simp_all [hasTypeLeaf, hasTypeAtom, arityOf, leafTokens, arityFits]
  | record fields => simp [hasTypeLeaf, hasTypeAtom] at ht
  | union vars => simp [hasTypeLeaf, hasTypeAtom] at ht
  | foreignTy => simp [hasTypeLeaf, hasTypeAtom] at ht

/-! ### Transfer from TypeNode-level to tree-level predicates -/

theorem except_bind_error {ε α β : Type} (e : ε) (f : α → Except ε β) :
    ((Except.error e : Except ε α) >>= f) = .error e := rfl

mutual
theorem compile_fits : ∀ (t : TypeNode) {ex : Option Value} {path : List String}
    {tree : ArgTree}, compile t ex path = .ok tree →
    ∀ v, fitsTree tree v = hasType t v
  | .scalar k, ex, path, tree, h, v => by
      simp only [compile, Except.ok.injEq] at h
      subst h
      cases v <;> simp [fitsTree, hasType]
  | .lit as, ex, path, tree, h, v => by
      simp only [compile, Except.ok.injEq] at h
      subst h
      cases v <;> simp [fitsTree, hasType]
  | .opt t, ex, path, tree, h, v => by
      by_cases hs : scalarish t = true
      · simp only [compile, hs, if_true, Except.ok.injEq] at h
        subst h
        cases v <;> simp [fitsTree, hasType]
      · simp [compile, hs] at h
  | .seq t len, ex, path, tree, h, v => by
      by_cases hs : scalarish t = true
      · simp only [compile, hs, if_true, Except.ok.injEq] at h
        subst h
        cases v <;> simp [fitsTree, hasType]
      · simp [compile, hs] at h
  | .tup ts, ex, path, tree, h, v => by
      by_cases hs : ts.all scalarish = true
      · simp only [compile, hs, if_true, Except.ok.injEq] at h
        subst h
        cases v <;> simp [fitsTree, hasType]
      · simp [compile, hs] at h
  | .mapping kt vt, ex, path, tree, h, v => by
      by_cases hs : (scalarish kt && scalarish vt) = true
      · simp only [compile, hs, if_true, Except.ok.injEq] at h
        subst h
        cases v <;> simp [fitsTree, hasType]
      · simp [compile, hs] at h
  | .record fields, ex, path, tree, h, v => by
      cases hc : compileFields fields (exRecord ex) path with
      | error e => rw [compile, hc, except_bind_error] at h; cases h
      | ok cs =>
          rw [compile, hc, except_bind_ok] at h
          cases h
          cases v <;> simp [fitsTree, hasType, compileFields_fits fields hc]
  | .union vars, ex, path, tree, h, v => by
      cases hc : compileVariants vars (exVariant ex) path with
      | error e => rw [compile, hc, except_bind_error] at h; cases h
      | ok bs =>
          rw [compile, hc, except_bind_ok] at h
          cases h
          cases v <;> simp [fitsTree, hasType, compileVariants_fits vars hc]
  | .foreignTy, ex, path, tree, h, v => by
      simp [compile] at h

theorem compileFields_fits : ∀ (fields : List (String × TypeNode × Option Value))
    {exfs : List (String × Value)} {path : List String} {cs : List (String × ArgTree)},
    compileFields fields exfs path = .ok cs →
    ∀ fvs, fitsChildren cs fvs = hasTypeFields fields fvs
  | [], exfs, path, cs, h, fvs => by
      simp only [compileFields, Except.ok.injEq] at h
      subst h
      cases fvs <;> simp [fitsChildren, hasTypeFields]
  | (name, ty, idef) :: rest, exfs, path, cs, h, fvs => by
      cases hc : compile ty (resolveDefault idef (alookup name exfs)) (path ++ [name]) with
      | error e => rw [compileFields, hc, except_bind_error] at h; cases h
      | ok c =>
          cases hcs : compileFields rest exfs path with
          | error e => rw [compileFields, hc, except_bind_ok, hcs, except_bind_error] at h; cases h
          | ok cs2 =>
              rw [compileFields, hc, except_bind_ok, hcs, except_bind_ok] at h
              cases h
              cases fvs with
              | nil => simp [fitsChildren, hasTypeFields]
              | cons fv fvs2 =>
                  obtain ⟨fn, v⟩ := fv
                  simp [fitsChildren, hasTypeFields, compile_fits ty hc,
                    compileFields_fits rest hcs]

theorem compileVariants_fits : ∀ (vars : List (String × Option String × Option Value × TypeNode))
    {exsel : Option (String × Value)} {path : List String}
    {bs : List (String × Option String × ArgTree)},
    compileVariants vars exsel path = .ok bs →
    ∀ n w, fitsBranches bs n w = hasTypeVariants vars n w
  | [], exsel, path, bs, h, n, w => by
      simp only [compileVariants, Except.ok.injEq] at h
      subst h
      simp [fitsBranches, hasTypeVariants]
  | (m, desc, vdef, vt) :: rest, exsel, path, bs, h, n, w => by
      by_cases he : m = ""
      · simp [compileVariants, he] at h
      · by_cases hdash : startsWithDash m = true
        · simp [compileVariants, he, hdash] at h
        · by_cases hrec : isRecordTy vt = true
          · rw [compileVariants] at h
            simp only [he, if_false, Bool.not_eq_true] at h
            rw [if_neg (by simp [hdash]), if_pos hrec] at h
            cases hb : compile vt (branchEx exsel m vdef) (path ++ [m]) with
            | error e => rw [hb, except_bind_error] at h; cases h
            | ok bt =>
                cases hbs : compileVariants rest exsel path with
                | error e => rw [hb, except_bind_ok, hbs, except_bind_error] at h; cases h
                | ok bs2 =>
                    rw [hb, except_bind_ok, hbs, except_bind_ok] at h
                    cases h
                    by_cases hm : m = n
                    · simp [fitsBranches, hasTypeVariants, hm, compile_fits vt hb]
                    · simp [fitsBranches, hasTypeVariants, hm,
                        compileVariants_fits rest hbs]
          · rw [compileVariants] at h
            simp only [he, if_false] at h
            rw [if_neg (by simp [hdash]), if_neg hrec] at h
            cases h
end

mutual
theorem compile_clean : ∀ (t : TypeNode) {ex : Option Value} {path : List String}
    {tree : ArgTree}, compile t ex path = .ok tree →
    ∀ v, cleanTree tree v = cleanVal t v
  | .scalar k, ex, path, tree, h, v => by
      simp only [compile, Except.ok.injEq] at h
      subst h
      cases v <;> simp [cleanTree, cleanVal]
  | .lit as, ex, path, tree, h, v => by
      simp only [compile, Except.ok.injEq] at h
      subst h
      cases v <;> simp [cleanTree, cleanVal]
  | .opt t, ex, path, tree, h, v => by
      by_cases hs : scalarish t = true
      · simp only [compile, hs, if_true, Except.ok.injEq] at h
        subst h
        cases v <;> simp [cleanTree, cleanVal]
      · simp [compile, hs] at h
  | .seq t len, ex, path, tree, h, v => by
      by_cases hs : scalarish t = true
      · simp only [compile, hs, if_true, Except.ok.injEq] at h
        subst h
        cases v <;> simp [cleanTree, cleanVal]
      · simp [compile, hs] at h
  | .tup ts, ex, path, tree, h, v => by
      by_cases hs : ts.all scalarish = true
      · simp only [compile, hs, if_true, Except.ok.injEq] at h
        subst h
        cases v <;> simp [cleanTree, cleanVal]
      · simp [compile, hs] at h
  | .mapping kt vt, ex, path, tree, h, v => by
      by_cases hs : (scalarish kt && scalarish vt) = true
      · simp only [compile, hs, if_true, Except.ok.injEq] at h
        subst h
        cases v <;> simp [cleanTree, cleanVal]
      · simp [compile, hs] at h
  | .record fields, ex, path, tree, h, v => by
      cases hc : compileFields fields (exRecord ex) path with
      | error e => rw [compile, hc, except_bind_error] at h; cases h
      | ok cs =>
          rw [compile, hc, except_bind_ok] at h
          cases h
          cases v <;> simp [cleanTree, cleanVal, cleanLeaf, compileFields_clean fields hc]
  | .union vars, ex, path, tree, h, v => by
      cases hc : compileVariants vars (exVariant ex) path with
      | error e => rw [compile, hc, except_bind_error] at h; cases h
      | ok bs =>
          rw [compile, hc, except_bind_ok] at h
          cases h
          cases v <;> simp [cleanTree, cleanVal, cleanLeaf, compileVariants_clean vars hc]
  | .foreignTy, ex, path, tree, h, v => by
      simp [compile] at h

theorem compileFields_clean : ∀ (fields : List (String × TypeNode × Option Value))
    {exfs : List (String × Value)} {path : List String} {cs : List (String × ArgTree)},
    compileFields fields exfs path = .ok cs →
    ∀ fvs, cleanChildren cs fvs = cleanFields fields fvs
  | [], exfs, path, cs, h, fvs => by
      simp only [compileFields, Except.ok.injEq] at h
      subst h
      cases fvs <;> simp [cleanChildren, cleanFields]
  | (name, ty, idef) :: rest, exfs, path, cs, h, fvs => by
      cases hc : compile ty (resolveDefault idef (alookup name exfs)) (path ++ [name]) with
      | error e => rw [compileFields, hc, except_bind_error] at h; cases h
      | ok c =>
          cases hcs : compileFields rest exfs path with
          | error e => rw [compileFields, hc, except_bind_ok, hcs, except_bind_error] at h; cases h
          | ok cs2 =>
              rw [compileFields, hc, except_bind_ok, hcs, except_bind_ok] at h
              cases h
              cases fvs with
              | nil => simp [cleanChildren, cleanFields]
              | cons fv fvs2 =>
                  obtain ⟨fn, v⟩ := fv
                  simp [cleanChildren, cleanFields, compile_clean ty hc,
                    compileFields_clean rest hcs]

theorem compileVariants_clean : ∀ (vars : List (String × Option String × Option Value × TypeNode))
    {exsel : Option (String × Value)} {path : List String}
    {bs : List (String × Option String × ArgTree)},
    compileVariants vars exsel path = .ok bs →
    ∀ n w, cleanBranches bs n w = cleanVariants vars n w
  | [], exsel, path, bs, h, n, w => by
      simp only [compileVariants, Except.ok.injEq] at h
      subst h
      simp [cleanBranches, cleanVariants]
  | (m, desc, vdef, vt) :: rest, exsel, path, bs, h, n, w => by
      by_cases he : m = ""
      · simp [compileVariants, he] at h
      · by_cases hdash : startsWithDash m = true
        · simp [compileVariants, he, hdash] at h
        · by_cases hrec : isRecordTy vt = true
          · rw [compileVariants] at h
            simp only [he, if_false] at h
            rw [if_neg (by simp [hdash]), if_pos hrec] at h
            cases hb : compile vt (branchEx exsel m vdef) (path ++ [m]) with
            | error e => rw [hb, except_bind_error] at h; cases h
            | ok bt =>
                cases hbs : compileVariants rest exsel path with
                | error e => rw [hb, except_bind_ok, hbs, except_bind_error] at h; cases h
                | ok bs2 =>
                    rw [hb, except_bind_ok, hbs, except_bind_ok] at h
                    cases h
                    by_cases hm : m = n
                    · simp [cleanBranches, cleanVariants, hm, compile_clean vt hb]
                    · simp [cleanBranches, cleanVariants, hm,
                        compileVariants_clean rest hbs]
          · rw [compileVariants] at h
            simp only [he, if_false] at h
            rw [if_neg (by simp [hdash]), if_neg hrec] at h
            cases h
end

mutual
theorem compile_wf : ∀ (t : TypeNode) {ex : Option Value} {path : List String}
    {tree : ArgTree}, compile t ex path = .ok tree → wfTree tree = true
  | .scalar k, ex, path, tree, h => by
      simp only [compile, Except.ok.injEq] at h
      subst h
      rfl
  | .lit as, ex, path, tree, h => by
      simp only [compile, Except.ok.injEq] at h
      subst h
      rfl
  | .opt t, ex, path, tree, h => by
      by_cases hs : scalarish t = true
      · simp only [compile, hs, if_true, Except.ok.injEq] at h
        subst h
        rfl
      · simp [compile, hs] at h
  | .seq t len, ex, path, tree, h => by
      by_cases hs : scalarish t = true
      · simp only [compile, hs, if_true, Except.ok.injEq] at h
        subst h
        rfl
      · simp [compile, hs] at h
  | .tup ts, ex, path, tree, h => by
      by_cases hs : ts.all scalarish = true
      · simp only [compile, hs, if_true, Except.ok.injEq] at h
        subst h
        rfl
      · simp [compile, hs] at h
  | .mapping kt vt, ex, path, tree, h => by
      by_cases hs : (scalarish kt && scalarish vt) = true
      · simp only [compile, hs, if_true, Except.ok.injEq] at h
        subst h
        rfl
      · simp [compile, hs] at h
  | .record fields, ex, path, tree, h => by
      cases hc : compileFields fields (exRecord ex) path with
      | error e => rw [compile, hc, except_bind_error] at h; cases h
      | ok cs =>
          rw [compile, hc, except_bind_ok] at h
          cases h
          simpa [wfTree] using compileFields_wf fields hc
  | .union vars, ex, path, tree, h => by
      cases hc : compileVariants vars (exVariant ex) path with
      | error e => rw [compile, hc, except_bind_error] at h; cases h
      | ok bs =>
          rw [compile, hc, except_bind_ok] at h
          cases h
          simpa [wfTree] using compileVariants_wf vars hc
  | .foreignTy, ex, path, tree, h => by
      simp [compile] at h

theorem compileFields_wf : ∀ (fields : List (String × TypeNode × Option Value))
    {exfs : List (String × Value)} {path : List String} {cs : List (String × ArgTree)},
    compileFields fields exfs path = .ok cs → wfChildren cs = true
  | [], exfs, path, cs, h => by
      simp only [compileFields, Except.ok.injEq] at h
      subst h
      rfl
  | (name, ty, idef) :: rest, exfs, path, cs, h => by
      cases hc : compile ty (resolveDefault idef (alookup name exfs)) (path ++ [name]) with
      | error e => rw [compileFields, hc, except_bind_error] at h; cases h
      | ok c =>
          cases hcs : compileFields rest exfs path with
          | error e => rw [compileFields, hc, except_bind_ok, hcs, except_bind_error] at h; cases h
          | ok cs2 =>
              rw [compileFields, hc, except_bind_ok, hcs, except_bind_ok] at h
              cases h
              simp [wfChildren, compile_wf ty hc, compileFields_wf rest hcs]

theorem compileVariants_wf : ∀ (vars : List (String × Option String × Option Value × TypeNode))
    {exsel : Option (String × Value)} {path : List String}
    {bs : List (String × Option String × ArgTree)},
    compileVariants vars exsel path = .ok bs → wfBranches bs = true
  | [], exsel, path, bs, h => by
      simp only [compileVariants, Except.ok.injEq] at h
      subst h
      rfl
  | (m, desc, vdef, vt) :: rest, exsel, path, bs, h => by
      by_cases he : m = ""
      · simp [compileVariants, he] at h
      · by_cases hdash : startsWithDash m = true
        · simp [compileVariants, he, hdash] at h
        · by_cases hrec : isRecordTy vt = true
          · rw [compileVariants] at h
            simp only [he, if_false] at h
            rw [if_neg (by simp [hdash]), if_pos hrec] at h
            cases hb : compile vt (branchEx exsel m vdef) (path ++ [m]) with
            | error e => rw [hb, except_bind_error] at h; cases h
            | ok bt =>
                cases hbs : compileVariants rest exsel path with
                | error e => rw [hb, except_bind_ok, hbs, except_bind_error] at h; cases h
                | ok bs2 =>
                    rw [hb, except_bind_ok, hbs, except_bind_ok] at h
                    cases h
                    simp [wfBranches, he, hdash, compile_wf vt hb,
                      compileVariants_wf rest hbs]
          · rw [compileVariants] at h
            simp only [he, if_false] at h
            rw [if_neg (by simp [hdash]), if_neg hrec] at h
            cases h
end

/-! ### Simulation of the Parser's dispatch phase -/

theorem lookupFlag_not_dash {tok : String} (h : startsWithDash tok = false)
    (flags : List LeafInfo) : lookupFlag flags tok = none := by
  induction flags with
  | nil => rfl
  | cons l rest ih =>
      simp [lookupFlag, flagOf_ne_of_not_dash h l.path, ih]

theorem DPhase.append {p1 : List ChoiceInfo} {s1 : List String} {f1 : List LeafInfo}
    {c1 : List (List String × String)} (h1 : DPhase p1 s1 f1 c1)
    {p2 : List ChoiceInfo} {s2 : List String} {f2 : List LeafInfo}
    {c2 : List (List String × String)} (h2 : DPhase p2 s2 f2 c2) :
    DPhase (p1 ++ p2) (s1 ++ s2) (f1 ++ f2) (c1 ++ c2) := by
  induction h1 with
  | nil => simpa using h2
  | cons hf hd hsub ih =>
      simp only [List.cons_append, List.append_assoc]
      exact DPhase.cons hf hd (by simpa [List.append_assoc] using ih)

/-- Tree-level round-trip data for branch lists, given the found branch. -/
theorem fitsBranches_find {bs : List (String × Option String × ArgTree)}
    {n : String} {w : Value} (h : fitsBranches bs n w = true) :
    ∃ desc bt, findBranch n bs = some (desc, bt) ∧ fitsTree bt w = true := by
  induction bs with
  | nil => simp [fitsBranches] at h
  | cons b rest ih =>
      obtain ⟨m, desc, bt⟩ := b
      by_cases hm : m = n
      · subst hm
        simp only [fitsBranches, if_pos rfl] at h
        exact ⟨desc, bt, by simp [findBranch, alookup], h⟩
      · simp only [fitsBranches, if_neg hm] at h
        obtain ⟨d2, bt2, hf, hfit⟩ := ih h
        exact ⟨d2, bt2, by simpa [findBranch, alookup, hm] using hf, hfit⟩

theorem wfBranches_find {bs : List (String × Option String × ArgTree)}
    {n : String} {desc : Option String} {bt : ArgTree}
    (hw : wfBranches bs = true) (hf : findBranch n bs = some (desc, bt)) :
    wfTree bt = true ∧ startsWithDash n = false := by
  induction bs with
  | nil => simp [findBranch, alookup] at hf
  | cons b rest ih =>
      obtain ⟨m, d2, bt2⟩ := b
      simp only [wfBranches, Bool.and_eq_true, Bool.not_eq_true', and_assoc] at hw
      obtain ⟨hw1, hw2, hw3, hw4⟩ := hw
      by_cases hm : m = n
      · subst hm
        simp only [findBranch, alookup, if_pos rfl, Option.some.injEq] at hf
        cases hf
        exact ⟨hw3, hw2⟩
      · simp only [findBranch, alookup, if_neg hm] at hf
        exact ih hw4 hf

theorem cleanBranches_find {bs : List (String × Option String × ArgTree)}
    {n : String} {desc : Option String} {bt : ArgTree} {w : Value}
    (hc : cleanBranches bs n w = true) (hf : findBranch n bs = some (desc, bt)) :
    cleanTree bt w = true := by
  induction bs with
  | nil => simp [findBranch, alookup] at hf
  | cons b rest ih =>
      obtain ⟨m, d2, bt2⟩ := b
      by_cases hm : m = n
      · subst hm
        simp only [findBranch, alookup, if_pos rfl, Option.some.injEq] at hf
        cases hf
        simpa only [cleanBranches, if_pos rfl] using hc
      · simp only [findBranch, alookup, if_neg hm] at hf
        simp only [cleanBranches, if_neg hm] at hc
        exact ih hc hf

theorem vcBranches_find {bs : List (String × Option String × ArgTree)}
    {n : String} {desc : Option String} {bt : ArgTree}
    (hf : findBranch n bs = some (desc, bt)) (w : Value) (p : List String) :
    vcSelsBranches bs n w = n :: vcSels bt w ∧
    vcFlagsBranches bs n w = flagMap bt ++ vcFlags bt w ∧
    vcChoicesBranches p bs n w = (p, n) :: vcChoices bt w ∧
    vcLeafItemsBranches bs n w = vcLeafItems bt w := by
  induction bs with
  | nil => simp [findBranch, alookup] at hf
  | cons b rest ih =>
      obtain ⟨m, d2, bt2⟩ := b
      by_cases hm : m = n
      · subst hm
        simp only [findBranch, alookup, eq_self_iff_true, if_true, if_pos,
          Option.some.injEq] at hf
        cases hf
        simp [vcSelsBranches, vcFlagsBranches, vcChoicesBranches, vcLeafItemsBranches]
      · simp only [findBranch, alookup, if_neg hm] at hf
        simpa [vcSelsBranches, vcFlagsBranches, vcChoicesBranches, vcLeafItemsBranches,
          hm] using ih hf

mutual
/-- A well-typed value induces a dispatch-phase run over its subtree's
ChoicePoints. -/
theorem fits_dphase : ∀ (t : ArgTree) (v : Value), fitsTree t v = true →
    wfTree t = true →
    DPhase (choicePointsOf t) (vcSels t v) (vcFlags t v) (vcChoices t v)
  | .leaf i, v, hf, hw => by
      simpa [choicePointsOf, vcSels, vcFlags, vcChoices] using DPhase.nil
  | .group p cs, v, hf, hw => by
      cases v with
      | vrecord fvs =>
          simpa [choicePointsOf, vcSels, vcFlags, vcChoices] using
            fitsChildren_dphase cs fvs hf (by simpa [wfTree] using hw)
      | vbool b => simp [fitsTree] at hf
      | vint n => simp [fitsTree] at hf
      | vstr s => simp [fitsTree] at hf
      | vlist vs => simp [fitsTree] at hf
      | vtuple vs => simp [fitsTree] at hf
      | vmap kvs => simp [fitsTree] at hf
      | vnone => simp [fitsTree] at hf
      | vsome w => simp [fitsTree] at hf
      | vvariant n w => simp [fitsTree] at hf
      | vmissing => simp [fitsTree] at hf
  | .choice p bs d, v, hf, hw => by
      cases v with
      | vvariant n w =>
          simp only [fitsTree] at hf
          obtain ⟨desc, bt, hfind, hfit⟩ := fitsBranches_find hf
          obtain ⟨hwbt, hdash⟩ := wfBranches_find (by simpa [wfTree] using hw) hfind
          obtain ⟨hs, hfl, hch, _⟩ := vcBranches_find hfind w p
          rw [choicePointsOf, vcSels, vcFlags, vcChoices, hs, hfl, hch]
          exact DPhase.cons (c := ⟨p, bs, d⟩) hfind hdash
            (by simpa using fits_dphase bt w hfit hwbt)
      | vbool b => simp [fitsTree] at hf
      | vint n => simp [fitsTree] at hf
      | vstr s => simp [fitsTree] at hf
      | vlist vs => simp [fitsTree] at hf
      | vtuple vs => simp [fitsTree] at hf
      | vmap kvs => simp [fitsTree] at hf
      | vnone => simp [fitsTree] at hf
      | vsome w => simp [fitsTree] at hf
      | vrecord fvs => simp [fitsTree] at hf
      | vmissing => simp [fitsTree] at hf

theorem fitsChildren_dphase : ∀ (cs : List (String × ArgTree)) (fvs : List (String × Value)),
    fitsChildren cs fvs = true → wfChildren cs = true →
    DPhase (choicePointsChildren cs) (vcSelsChildren cs fvs)
      (vcFlagsChildren cs fvs) (vcChoicesChildren cs fvs)
  | [], fvs, hf, hw => by
      cases fvs with
      | nil =>
          simpa [choicePointsChildren, vcSelsChildren, vcFlagsChildren,
            vcChoicesChildren] using DPhase.nil
      | cons fv fvs2 => simp [fitsChildren] at hf
  | (name, t) :: rest, fvs, hf, hw => by
      cases fvs with
      | nil => simp [fitsChildren] at hf
      | cons fv fvs2 =>
          obtain ⟨fn, v⟩ := fv
          simp only [fitsChildren, Bool.and_eq_true] at hf
          simp only [wfChildren, Bool.and_eq_true] at hw
          rw [choicePointsChildren, vcSelsChildren, vcFlagsChildren, vcChoicesChildren]
          exact DPhase.append (fits_dphase t v hf.1.2 hw.1)
            (fitsChildren_dphase rest fvs2 hf.2 hw.2)
end

/-- Running the Parser's loop over the selector tokens of a dispatch phase:
the pending ChoicePoints are resolved, the activated leaves join the flag
scope, and the recorded choices accumulate. -/
theorem parseLoop_dphase {pending : List ChoiceInfo} {sels : List String}
    {fl : List LeafInfo} {ch : List (List String × String)}
    (hd : DPhase pending sels fl ch) :
    ∀ (flags : List LeafInfo) (pv : PV) (rest : List String) (fuel : Nat),
      parseLoop (sels.length + fuel) flags pending pv (sels ++ rest) =
      parseLoop fuel (flags ++ fl) [] ⟨pv.leafVals, ch.reverse ++ pv.chosen⟩ rest := by
  induction hd with
  | nil => intro flags pv rest fuel; simp
  | cons hf hdash hsub ih =>
      intro flags pv rest fuel
      rename_i c crest n desc bt sels2 fl2 ch2
      have hlen : (n :: sels2).length + fuel = (sels2.length + fuel) + 1 := by
        simp [List.length_cons]
        omega
      rw [hlen]
      show parseLoop ((sels2.length + fuel) + 1) flags (c :: crest) pv
          (n :: (sels2 ++ rest)) = _
      simp only [parseLoop, lookupFlag_not_dash hdash flags, hf]
      rw [ih (flags ++ flagMap bt) (pv.addChoice c.path n) rest fuel]
      simp [PV.addChoice, List.append_assoc]

/-! ### Simulation of the Parser's flag phase -/

theorem noFlagToks_mem {toks : List String} (h : noFlagToks toks = true) :
    ∀ tok ∈ toks, (!isFlagToken tok) = true := by
  induction toks with
  | nil => intro tok hm; cases hm
  | cons t2 rest ih =>
      simp only [noFlagToks, Bool.and_eq_true] at h
      intro tok hm
      rcases List.mem_cons.mp hm with h2 | h2
      · subst h2; exact h.1
      · exact ih h.2 tok h2

theorem takeWhile_flatTokens (rest : List (LeafInfo × List String)) :
    (flatTokens rest).takeWhile (fun tk => !isFlagToken tk) = [] := by
  cases rest with
  | nil => rfl
  | cons item rest2 =>
      obtain ⟨j, raw2⟩ := item
      simp [flatTokens, List.takeWhile_cons, isFlagToken_flagOf]

theorem dropWhile_flatTokens (rest : List (LeafInfo × List String)) :
    (flatTokens rest).dropWhile (fun tk => !isFlagToken tk) = flatTokens rest := by
  cases rest with
  | nil => rfl
  | cons item rest2 =>
      obtain ⟨j, raw2⟩ := item
      simp [flatTokens, List.dropWhile_cons, isFlagToken_flagOf]

/-- Consuming the canonical raw tokens of a leaf from the head of a token
stream whose continuation is a flag run. -/
theorem consumeArity_exact {path : List String} {a : Arity} {raw : List String}
    (hfit : arityFits a raw = true) (rest : List (LeafInfo × List String)) :
    consumeArity path a (raw ++ flatTokens rest) = .ok (raw, flatTokens rest) := by
  cases a with
  | exactlyN n =>
      have hn : raw.length = n := by simpa [arityFits] using hfit
      subst hn
      simp [consumeArity, List.take_left, List.drop_left]
  | zeroOrMore =>
      simp only [arityFits] at hfit
      rw [consumeArity, List.takeWhile_append_of_pos (noFlagToks_mem hfit),
        List.dropWhile_append_of_pos (noFlagToks_mem hfit),
        takeWhile_flatTokens, dropWhile_flatTokens, List.append_nil]
  | oneOrMore =>
      simp only [arityFits, Bool.and_eq_true, Bool.not_eq_true'] at hfit
      rw [consumeArity, List.takeWhile_append_of_pos (noFlagToks_mem hfit.2),
        takeWhile_flatTokens, List.append_nil]
      rw [if_neg (by simp [hfit.1])]
      rw [List.dropWhile_append_of_pos (noFlagToks_mem hfit.2), dropWhile_flatTokens]

/-- Running the Parser's loop over the flag-and-values runs of the leaf
items: all leaves are recorded with their raw tokens. -/
theorem parseLoop_items : ∀ (items : List (LeafInfo × List String))
    (flags : List LeafInfo) (pv : PV) (fuel : Nat),
    (∀ i raw, (i, raw) ∈ items → lookupFlag flags (flagOf i.path) = some i) →
    (∀ i raw, (i, raw) ∈ items → arityFits (arityOf i.ty) raw = true) →
    items.length < fuel →
    parseLoop fuel flags [] pv (flatTokens items) =
      .ok ⟨(items.map (fun x => (x.1.path, x.2))).reverse ++ pv.leafVals, pv.chosen⟩
  | [], flags, pv, fuel, hlk, har, hlt => by
      cases fuel with
      | zero => omega
      | succ f => simp [flatTokens, parseLoop]
  | (i, raw) :: rest, flags, pv, fuel, hlk, har, hlt => by
      cases fuel with
      | zero => omega
      | succ f =>
          have hl : lookupFlag flags (flagOf i.path) = some i :=
            hlk i raw (List.mem_cons_self _ _)
          have ha : arityFits (arityOf i.ty) raw = true :=
            har i raw (List.mem_cons_self _ _)
          rw [show flatTokens ((i, raw) :: rest) =
            flagOf i.path :: (raw ++ flatTokens rest) from rfl]
          rw [parseLoop, hl]
          simp only [consumeArity_exact ha rest]
          rw [parseLoop_items rest flags (pv.addLeaf i.path raw) f
            (fun j r hm => hlk j r (List.mem_cons_of_mem _ hm))
            (fun j r hm => har j r (List.mem_cons_of_mem _ hm))
            (by simpa using Nat.lt_of_succ_lt_succ hlt)]
          simp [PV.addLeaf, List.reverse_cons, List.append_assoc]

/-! ### Uniqueness plumbing: activated leaves and choices are one-per-path -/

mutual
theorem flagMap_le_allLeaves : ∀ (t : ArgTree),
    (↑(flagMap t) : Multiset LeafInfo) ≤ ↑(allLeaves t)
  | .leaf i => le_refl _
  | .group p cs => by
      simpa [flagMap, allLeaves] using flagMapChildren_le cs
  | .choice p bs d => by
      simp [flagMap]

theorem flagMapChildren_le : ∀ (cs : List (String × ArgTree)),
    (↑(flagMapChildren cs) : Multiset LeafInfo) ≤ ↑(allLeavesChildren cs)
  | [] => le_refl _
  | (name, t) :: rest => by
      show (↑(flagMap t ++ flagMapChildren rest) : Multiset LeafInfo) ≤
        ↑(allLeaves t ++ allLeavesChildren rest)
      show (↑(flagMap t) : Multiset LeafInfo) + ↑(flagMapChildren rest) ≤
        (↑(allLeaves t) : Multiset LeafInfo) + ↑(allLeavesChildren rest)
      exact add_le_add (flagMap_le_allLeaves t) (flagMapChildren_le rest)
end

mutual
theorem vcFlags_le : ∀ (t : ArgTree) (v : Value),
    (↑(flagMap t ++ vcFlags t v) : Multiset LeafInfo) ≤ ↑(allLeaves t)
  | .leaf i, v => by simp [flagMap, vcFlags, allLeaves]
  | .group p cs, v => by
      cases v with
      | vrecord fvs =>
          show (↑(flagMapChildren cs ++ vcFlagsChildren cs fvs) : Multiset LeafInfo) ≤
            ↑(allLeavesChildren cs)
          exact vcFlagsChildren_le cs fvs
      | _ =>
          simpa [flagMap, vcFlags, allLeaves] using flagMapChildren_le cs
  | .choice p bs d, v => by
      cases v with
      | vvariant n w =>
          show (↑(vcFlagsBranches bs n w) : Multiset LeafInfo) ≤
            ↑(allLeavesBranches bs)
          exact vcFlagsBranches_le bs n w
      | _ => simp [flagMap, vcFlags, allLeaves]

theorem vcFlagsChildren_le : ∀ (cs : List (String × ArgTree)) (fvs : List (String × Value)),
    (↑(flagMapChildren cs ++ vcFlagsChildren cs fvs) : Multiset LeafInfo) ≤
      ↑(allLeavesChildren cs)
  | [], fvs => by
      cases fvs <;> simp [flagMapChildren, vcFlagsChildren, allLeavesChildren]
  | (name, t) :: rest, [] => by
      simpa [flagMapChildren, vcFlagsChildren, allLeavesChildren] using
        flagMapChildren_le ((name, t) :: rest)
  | (name, t) :: rest, fv :: fvs => by
      show (↑(flagMap t) : Multiset LeafInfo) + ↑(flagMapChildren rest) +
        ((↑(vcFlags t fv.2) : Multiset LeafInfo) + ↑(vcFlagsChildren rest fvs)) ≤
        (↑(allLeaves t) : Multiset LeafInfo) + ↑(allLeavesChildren rest)
      rw [add_add_add_comm]
      exact add_le_add (vcFlags_le t fv.2) (vcFlagsChildren_le rest fvs)

theorem vcFlagsBranches_le : ∀ (bs : List (String × Option String × ArgTree))
    (n : String) (w : Value),
    (↑(vcFlagsBranches bs n w) : Multiset LeafInfo) ≤ ↑(allLeavesBranches bs)
  | [], n, w => by simp [vcFlagsBranches, allLeavesBranches]
  | (m, d2, bt) :: rest, n, w => by
      by_cases hm : m = n
      · rw [vcFlagsBranches, if_pos hm]
        show (↑(flagMap bt ++ vcFlags bt w) : Multiset LeafInfo) ≤
          (↑(allLeaves bt) : Multiset LeafInfo) + ↑(allLeavesBranches rest)
        exact le_trans (vcFlags_le bt w) (Multiset.le_add_right _ _)
      · rw [vcFlagsBranches, if_neg hm]
        show (↑(vcFlagsBranches rest n w) : Multiset LeafInfo) ≤
          (↑(allLeaves bt) : Multiset LeafInfo) + ↑(allLeavesBranches rest)
        exact le_trans (vcFlagsBranches_le rest n w) (Multiset.le_add_left _ _)
end

mutual
theorem vcItems_le : ∀ (t : ArgTree) (v : Value),
    (↑((vcLeafItems t v).map Prod.fst) : Multiset LeafInfo) ≤ ↑(flagMap t ++ vcFlags t v)
  | .leaf i, v => by simp [vcLeafItems, flagMap, vcFlags]
  | .group p cs, v => by
      cases v with
      | vrecord fvs =>
          show (↑((vcLeafItemsChildren cs fvs).map Prod.fst) : Multiset LeafInfo) ≤
            ↑(flagMapChildren cs ++ vcFlagsChildren cs fvs)
          exact vcItemsChildren_le cs fvs
      | _ => simp [vcLeafItems, flagMap, vcFlags]
  | .choice p bs d, v => by
      cases v with
      | vvariant n w =>
          show (↑((vcLeafItemsBranches bs n w).map Prod.fst) : Multiset LeafInfo) ≤
            ↑(vcFlagsBranches bs n w)
          exact vcItemsBranches_le bs n w
      | _ => simp [vcLeafItems, flagMap, vcFlags]

theorem vcItemsChildren_le : ∀ (cs : List (String × ArgTree)) (fvs : List (String × Value)),
    (↑((vcLeafItemsChildren cs fvs).map Prod.fst) : Multiset LeafInfo) ≤
      ↑(flagMapChildren cs ++ vcFlagsChildren cs fvs)
  | [], fvs => by
      cases fvs <;> simp [vcLeafItemsChildren, flagMapChildren, vcFlagsChildren]
  | (name, t) :: rest, [] => by
      simp [vcLeafItemsChildren, flagMapChildren, vcFlagsChildren]
  | (name, t) :: rest, fv :: fvs => by
      rw [show vcLeafItemsChildren ((name, t) :: rest) (fv :: fvs) =
        vcLeafItems t fv.2 ++ vcLeafItemsChildren rest fvs from rfl]
      rw [List.map_append]
      show (↑((vcLeafItems t fv.2).map Prod.fst) : Multiset LeafInfo) +
        ↑((vcLeafItemsChildren rest fvs).map Prod.fst) ≤
        (↑(flagMap t) : Multiset LeafInfo) + ↑(flagMapChildren rest) +
        ((↑(vcFlags t fv.2) : Multiset LeafInfo) + ↑(vcFlagsChildren rest fvs))
      rw [add_add_add_comm]
      refine add_le_add ?_ ?_
      · exact vcItems_le t fv.2
      · exact vcItemsChildren_le rest fvs

theorem vcItemsBranches_le : ∀ (bs : List (String × Option String × ArgTree))
    (n : String) (w : Value),
    (↑((vcLeafItemsBranches bs n w).map Prod.fst) : Multiset LeafInfo) ≤
      ↑(vcFlagsBranches bs n w)
  | [], n, w => by simp [vcLeafItemsBranches, vcFlagsBranches]
  | (m, d2, bt) :: rest, n, w => by
      by_cases hm : m = n
      · rw [vcLeafItemsBranches, if_pos hm, vcFlagsBranches, if_pos hm]
        exact vcItems_le bt w
      · rw [vcLeafItemsBranches, if_neg hm, vcFlagsBranches, if_neg hm]
        exact vcItemsBranches_le rest n w
end

mutual
theorem vcChoices_le : ∀ (t : ArgTree) (v : Value),
    (↑((vcChoices t v).map Prod.fst) : Multiset (List String)) ≤ ↑(allChoicePaths t)
  | .leaf i, v => by simp [vcChoices, allChoicePaths]
  | .group p cs, v => by
      cases v with
      | vrecord fvs =>
          show (↑((vcChoicesChildren cs fvs).map Prod.fst) : Multiset (List String)) ≤
            ↑(allChoicePathsChildren cs)
          exact vcChoicesChildren_le cs fvs
      | _ => simp [vcChoices, allChoicePaths]
  | .choice p bs d, v => by
      cases v with
      | vvariant n w =>
          show (↑((vcChoicesBranches p bs n w).map Prod.fst) : Multiset (List String)) ≤
            ↑(p :: allChoicePathsBranches bs)
          exact vcChoicesBranches_le p bs n w
      | _ => simp [vcChoices, allChoicePaths]

theorem vcChoicesChildren_le : ∀ (cs : List (String × ArgTree)) (fvs : List (String × Value)),
    (↑((vcChoicesChildren cs fvs).map Prod.fst) : Multiset (List String)) ≤
      ↑(allChoicePathsChildren cs)
  | [], fvs => by
      cases fvs <;> simp [vcChoicesChildren, allChoicePathsChildren]
  | (name, t) :: rest, [] => by
      simp [vcChoicesChildren, allChoicePathsChildren]
  | (name, t) :: rest, fv :: fvs => by
      rw [show vcChoicesChildren ((name, t) :: rest) (fv :: fvs) =
        vcChoices t fv.2 ++ vcChoicesChildren rest fvs from rfl]
      rw [List.map_append]
      show (↑((vcChoices t fv.2).map Prod.fst) : Multiset (List String)) +
        ↑((vcChoicesChildren rest fvs).map Prod.fst) ≤
        (↑(allChoicePaths t) : Multiset (List String)) + ↑(allChoicePathsChildren rest)
      exact add_le_add (vcChoices_le t fv.2) (vcChoicesChildren_le rest fvs)

theorem vcChoicesBranches_le : ∀ (p : List String)
    (bs : List (String × Option String × ArgTree)) (n : String) (w : Value),
    (↑((vcChoicesBranches p bs n w).map Prod.fst) : Multiset (List String)) ≤
      ↑(p :: allChoicePathsBranches bs)
  | p, [], n, w => by simp [vcChoicesBranches, allChoicePathsBranches]
  | p, (m, d2, bt) :: rest, n, w => by
      by_cases hm : m = n
      · rw [vcChoicesBranches, if_pos hm]
        rw [show ((p, n) :: vcChoices bt w).map Prod.fst =
          p :: (vcChoices bt w).map Prod.fst from rfl]
        show (p ::ₘ ↑((vcChoices bt w).map Prod.fst) : Multiset (List String)) ≤
          p ::ₘ ↑(allChoicePaths bt ++ allChoicePathsBranches rest)
        refine (Multiset.cons_le_cons_iff p).mpr ?_
        refine le_trans (vcChoices_le bt w) ?_
        show (↑(allChoicePaths bt) : Multiset (List String)) ≤
          (↑(allChoicePaths bt) : Multiset (List String)) + ↑(allChoicePathsBranches rest)
        exact Multiset.le_add_right _ _
      · rw [vcChoicesBranches, if_neg hm]
        refine le_trans (vcChoicesBranches_le p rest n w) ?_
        show (p ::ₘ ↑(allChoicePathsBranches rest) : Multiset (List String)) ≤
          p ::ₘ ↑(allChoicePaths bt ++ allChoicePathsBranches rest)
        refine (Multiset.cons_le_cons_iff p).mpr ?_
        show (↑(allChoicePathsBranches rest) : Multiset (List String)) ≤
          (↑(allChoicePaths bt) : Multiset (List String)) + ↑(allChoicePathsBranches rest)
        exact Multiset.le_add_left _ _
end

mutual
theorem allLeavesPaths_sublist : ∀ (t : ArgTree),
    ((allLeaves t).map LeafInfo.path).Sublist (allPaths t)
  | .leaf i => by simp [allLeaves, allPaths]
  | .group p cs => by
      rw [allLeaves, allPaths]
      exact (allLeavesPathsChildren_sublist cs).cons p
  | .choice p bs d => by
      rw [allLeaves, allPaths]
      exact (allLeavesPathsBranches_sublist bs).cons p
theorem allLeavesPathsChildren_sublist : ∀ (cs : List (String × ArgTree)),
    ((allLeavesChildren cs).map LeafInfo.path).Sublist (allPathsChildren cs)
  | [] => by simp [allLeavesChildren, allPathsChildren]
  | (name, t) :: rest => by
      rw [allLeavesChildren, allPathsChildren, List.map_append]
      exact (allLeavesPaths_sublist t).append (allLeavesPathsChildren_sublist rest)
theorem allLeavesPathsBranches_sublist : ∀ (bs : List (String × Option String × ArgTree)),
    ((allLeavesBranches bs).map LeafInfo.path).Sublist (allPathsBranches bs)
  | [] => by simp [allLeavesBranches, allPathsBranches]
  | (m, d2, bt) :: rest => by
      rw [allLeavesBranches, allPathsBranches, List.map_append]
      exact (allLeavesPaths_sublist bt).append (allLeavesPathsBranches_sublist rest)
end

mutual
theorem allChoicePaths_sublist : ∀ (t : ArgTree),
    (allChoicePaths t).Sublist (allPaths t)
  | .leaf i => by simp [allChoicePaths, allPaths]
  | .group p cs => by
      rw [allChoicePaths, allPaths]
      exact (allChoicePathsChildren_sublist cs).cons p
  | .choice p bs d => by
      rw [allChoicePaths, allPaths]
      exact (allChoicePathsBranches_sublist bs).cons₂ p
theorem allChoicePathsChildren_sublist : ∀ (cs : List (String × ArgTree)),
    (allChoicePathsChildren cs).Sublist (allPathsChildren cs)
  | [] => by simp [allChoicePathsChildren, allPathsChildren]
  | (name, t) :: rest => by
      rw [allChoicePathsChildren, allPathsChildren]
      exact (allChoicePaths_sublist t).append (allChoicePathsChildren_sublist rest)
theorem allChoicePathsBranches_sublist : ∀ (bs : List (String × Option String × ArgTree)),
    (allChoicePathsBranches bs).Sublist (allPathsBranches bs)
  | [] => by simp [allChoicePathsBranches, allPathsBranches]
  | (m, d2, bt) :: rest => by
      rw [allChoicePathsBranches, allPathsBranches]
      exact (allChoicePaths_sublist bt).append (allChoicePathsBranches_sublist rest)
end

theorem list_nodup_of_le {α : Type} {l1 l2 : List α}
    (h : (↑l1 : Multiset α) ≤ ↑l2) (hnd : l2.Nodup) : l1.Nodup := by
  have h2 : (↑l2 : Multiset α).Nodup := by
    rw [Multiset.coe_nodup]
    exact hnd
  have := Multiset.nodup_of_le h h2
  rwa [Multiset.coe_nodup] at this

theorem list_map_le_of_le {α β : Type} (f : α → β) {l1 l2 : List α}
    (h : (↑l1 : Multiset α) ≤ ↑l2) : (↑(l1.map f) : Multiset β) ≤ ↑(l2.map f) :=
  Multiset.map_le_map h

theorem lookupFlag_eq_some {flags : List LeafInfo} {l : LeafInfo}
    (hnd : (flags.map (fun x => flagOf x.path)).Nodup) (hm : l ∈ flags) :
    lookupFlag flags (flagOf l.path) = some l := by
  induction flags with
  | nil => cases hm
  | cons x rest ih =>
      simp only [List.map_cons, List.nodup_cons] at hnd
      rcases List.mem_cons.mp hm with h2 | h2
      · subst h2
        simp [lookupFlag]
      · by_cases he : flagOf x.path = flagOf l.path
        · exact absurd (he ▸ List.mem_map.mpr ⟨l, h2, rfl⟩) hnd.1
        · rw [lookupFlag, if_neg he]
          exact ih hnd.2 h2

theorem item_mem_flags {t : ArgTree} {v : Value} {i : LeafInfo} {raw : List String}
    (hm : (i, raw) ∈ vcLeafItems t v) : i ∈ flagMap t ++ vcFlags t v := by
  have h1 : i ∈ (vcLeafItems t v).map Prod.fst := List.mem_map.mpr ⟨(i, raw), hm, rfl⟩
  have h2 : i ∈ (↑((vcLeafItems t v).map Prod.fst) : Multiset LeafInfo) := by
    rwa [Multiset.mem_coe]
  have h3 := Multiset.mem_of_le (vcItems_le t v) h2
  rwa [Multiset.mem_coe] at h3

/-! ### Canonical leaf items satisfy their arities -/

mutual
theorem vcItems_arity : ∀ (t : ArgTree) (v : Value), fitsTree t v = true →
    cleanTree t v = true → ∀ i raw, (i, raw) ∈ vcLeafItems t v →
    arityFits (arityOf i.ty) raw = true
  | .leaf info, v, hf, hcl, i, raw, hm => by
      simp only [vcLeafItems, List.mem_singleton, Prod.mk.injEq] at hm
      obtain ⟨h1, h2⟩ := hm
      subst h1
      subst h2
      exact leafTokens_arity (by simpa [fitsTree] using hf) (by simpa [cleanTree] using hcl)
  | .group p cs, v, hf, hcl, i, raw, hm => by
      cases v with
      | vrecord fvs =>
          exact vcItemsChildren_arity cs fvs (by simpa [fitsTree] using hf)
            (by simpa [cleanTree] using hcl) i raw (by simpa [vcLeafItems] using hm)
      | vbool b => simp [fitsTree] at hf
      | vint n => simp [fitsTree] at hf
      | vstr s => simp [fitsTree] at hf
      | vlist vs => simp [fitsTree] at hf
      | vtuple vs => simp [fitsTree] at hf
      | vmap kvs => simp [fitsTree] at hf
      | vnone => simp [fitsTree] at hf
      | vsome w => simp [fitsTree] at hf
      | vvariant n w => simp [fitsTree] at hf
      | vmissing => simp [fitsTree] at hf
  | .choice p bs d, v, hf, hcl, i, raw, hm => by
      cases v with
      | vvariant n w =>
          have hf2 : fitsBranches bs n w = true := by simpa [fitsTree] using hf
          obtain ⟨desc, bt, hfind, hfit⟩ := fitsBranches_find hf2
          have hclean : cleanTree bt w = true :=
            cleanBranches_find (by simpa [cleanTree] using hcl) hfind
          obtain ⟨_, _, _, hitems⟩ := vcBranches_find hfind w p
          rw [vcLeafItems, hitems] at hm
          exact vcItems_arity bt w hfit hclean i raw hm
      | vbool b => simp [fitsTree] at hf
      | vint n => simp [fitsTree] at hf
      | vstr s => simp [fitsTree] at hf
      | vlist vs => simp [fitsTree] at hf
      | vtuple vs => simp [fitsTree] at hf
      | vmap kvs => simp [fitsTree] at hf
      | vnone => simp [fitsTree] at hf
      | vsome w => simp [fitsTree] at hf
      | vrecord fvs => simp [fitsTree] at hf
      | vmissing => simp [fitsTree] at hf

theorem vcItemsChildren_arity : ∀ (cs : List (String × ArgTree)) (fvs : List (String × Value)),
    fitsChildren cs fvs = true → cleanChildren cs fvs = true →
    ∀ i raw, (i, raw) ∈ vcLeafItemsChildren cs fvs →
    arityFits (arityOf i.ty) raw = true
  | [], fvs, hf, hcl, i, raw, hm => by
      cases fvs with
      | nil => simp [vcLeafItemsChildren] at hm
      | cons fv fvs2 => simp [fitsChildren] at hf
  | (name, t) :: rest, fvs, hf, hcl, i, raw, hm => by
      cases fvs with
      | nil => simp [fitsChildren] at hf
      | cons fv fvs2 =>
          obtain ⟨fn, w⟩ := fv
          simp only [fitsChildren, Bool.and_eq_true] at hf
          simp only [cleanChildren, Bool.and_eq_true] at hcl
          rw [show vcLeafItemsChildren ((name, t) :: rest) ((fn, w) :: fvs2) =
            vcLeafItems t w ++ vcLeafItemsChildren rest fvs2 from rfl] at hm
          rcases List.mem_append.mp hm with h2 | h2
          · exact vcItems_arity t w hf.1.2 hcl.1 i raw h2
          · exact vcItemsChildren_arity rest fvs2 hf.2 hcl.2 i raw h2
end

/-! ### Instantiator round trip -/

mutual
theorem inst_rt : ∀ (t : ArgTree) (v : Value) (pv : PV), fitsTree t v = true →
    cleanTree t v = true →
    (∀ i raw, (i, raw) ∈ vcLeafItems t v → alookup i.path pv.leafVals = some raw) →
    (∀ p n, (p, n) ∈ vcChoices t v → alookup p pv.chosen = some n) →
    instantiate t pv = .ok v
  | .leaf info, v, pv, hf, hcl, hleaf, hch => by
      have hl := hleaf info (leafTokens info.ty v) (by simp [vcLeafItems])
      rw [instantiate, hl]
      exact convertLeaf_leafTokens info.path (by simpa [fitsTree] using hf)
        (by simpa [cleanTree] using hcl)
  | .group p cs, v, pv, hf, hcl, hleaf, hch => by
      cases v with
      | vrecord fvs =>
          rw [instantiate, instChildren_rt cs fvs pv (by simpa [fitsTree] using hf)
            (by simpa [cleanTree] using hcl)
            (fun i raw hm => hleaf i raw (by simpa [vcLeafItems] using hm))
            (fun q m hm => hch q m (by simpa [vcChoices] using hm)), except_bind_ok]
      | vbool b => simp [fitsTree] at hf
      | vint n => simp [fitsTree] at hf
      | vstr s => simp [fitsTree] at hf
      | vlist vs => simp [fitsTree] at hf
      | vtuple vs => simp [fitsTree] at hf
      | vmap kvs => simp [fitsTree] at hf
      | vnone => simp [fitsTree] at hf
      | vsome w => simp [fitsTree] at hf
      | vvariant n w => simp [fitsTree] at hf
      | vmissing => simp [fitsTree] at hf
  | .choice p bs d, v, pv, hf, hcl, hleaf, hch => by
      cases v with
      | vvariant n w =>
          have hf2 : fitsBranches bs n w = true := by simpa [fitsTree] using hf
          obtain ⟨desc, bt, hfind, hfit⟩ := fitsBranches_find hf2
          obtain ⟨_, _, hchs, hitems⟩ := vcBranches_find hfind w p
          have hsel : alookup p pv.chosen = some n := by
            refine hch p n ?_
            rw [vcChoices, hchs]
            exact List.mem_cons_self _ _
          rw [instantiate, hsel]
          exact instBranches_rt bs n p w pv hf2 (by simpa [cleanTree] using hcl)
            (fun i raw hm => hleaf i raw (by rw [vcLeafItems]; exact hm))
            (fun q m hm => hch q m (by rw [vcChoices]; exact hm))
      | vbool b => simp [fitsTree] at hf
      | vint n => simp [fitsTree] at hf
      | vstr s => simp [fitsTree] at hf
      | vlist vs => simp [fitsTree] at hf
      | vtuple vs => simp [fitsTree] at hf
      | vmap kvs => simp [fitsTree] at hf
      | vnone => simp [fitsTree] at hf
      | vsome w => simp [fitsTree] at hf
      | vrecord fvs => simp [fitsTree] at hf
      | vmissing => simp [fitsTree] at hf

theorem instChildren_rt : ∀ (cs : List (String × ArgTree)) (fvs : List (String × Value))
    (pv : PV), fitsChildren cs fvs = true → cleanChildren cs fvs = true →
    (∀ i raw, (i, raw) ∈ vcLeafItemsChildren cs fvs → alookup i.path pv.leafVals = some raw) →
    (∀ p n, (p, n) ∈ vcChoicesChildren cs fvs → alookup p pv.chosen = some n) →
    instChildren cs pv = .ok fvs
  | [], fvs, pv, hf, hcl, hleaf, hch => by
      cases fvs with
      | nil => rfl
      | cons fv fvs2 => simp [fitsChildren] at hf
  | (name, t) :: rest, fvs, pv, hf, hcl, hleaf, hch => by
      cases fvs with
      | nil => simp [fitsChildren] at hf
      | cons fv fvs2 =>
          obtain ⟨fn, w⟩ := fv
          simp only [fitsChildren, Bool.and_eq_true] at hf
          simp only [cleanChildren, Bool.and_eq_true] at hcl
          have hname : name = fn := by simpa using hf.1.1
          have hmemL : ∀ i raw, (i, raw) ∈ vcLeafItems t w →
              alookup i.path pv.leafVals = some raw := fun i raw hm =>
            hleaf i raw (by
              rw [show vcLeafItemsChildren ((name, t) :: rest) ((fn, w) :: fvs2) =
                vcLeafItems t w ++ vcLeafItemsChildren rest fvs2 from rfl]
              exact List.mem_append_left _ hm)
          have hmemC : ∀ p n, (p, n) ∈ vcChoices t w →
              alookup p pv.chosen = some n := fun q m hm =>
            hch q m (by
              rw [show vcChoicesChildren ((name, t) :: rest) ((fn, w) :: fvs2) =
                vcChoices t w ++ vcChoicesChildren rest fvs2 from rfl]
              exact List.mem_append_left _ hm)
          have hmemL2 : ∀ i raw, (i, raw) ∈ vcLeafItemsChildren rest fvs2 →
              alookup i.path pv.leafVals = some raw := fun i raw hm =>
            hleaf i raw (by
              rw [show vcLeafItemsChildren ((name, t) :: rest) ((fn, w) :: fvs2) =
                vcLeafItems t w ++ vcLeafItemsChildren rest fvs2 from rfl]
              exact List.mem_append_right _ hm)
          have hmemC2 : ∀ p n, (p, n) ∈ vcChoicesChildren rest fvs2 →
              alookup p pv.chosen = some n := fun q m hm =>
            hch q m (by
              rw [show vcChoicesChildren ((name, t) :: rest) ((fn, w) :: fvs2) =
                vcChoices t w ++ vcChoicesChildren rest fvs2 from rfl]
              exact List.mem_append_right _ hm)
          rw [instChildren, inst_rt t w pv hf.1.2 hcl.1 hmemL hmemC, except_bind_ok,
            instChildren_rt rest fvs2 pv hf.2 hcl.2 hmemL2 hmemC2, except_bind_ok, hname]

theorem instBranches_rt : ∀ (bs : List (String × Option String × ArgTree)) (n : String)
    (p : List String) (w : Value) (pv : PV), fitsBranches bs n w = true →
    cleanBranches bs n w = true →
    (∀ i raw, (i, raw) ∈ vcLeafItemsBranches bs n w → alookup i.path pv.leafVals = some raw) →
    (∀ q m, (q, m) ∈ vcChoicesBranches p bs n w → alookup q pv.chosen = some m) →
    instBranches bs n p pv = .ok (.vvariant n w)
  | [], n, p, w, pv, hf, hcl, hleaf, hch => by simp [fitsBranches] at hf
  | (m, d2, bt) :: rest, n, p, w, pv, hf, hcl, hleaf, hch => by
      by_cases hm : m = n
      · rw [instBranches, if_pos hm]
        rw [inst_rt bt w pv (by simpa [fitsBranches, if_pos hm] using hf)
          (by simpa [cleanBranches, if_pos hm] using hcl)
          (fun i raw h2 => hleaf i raw (by rw [vcLeafItemsBranches, if_pos hm]; exact h2))
          (fun q m2 h2 => hch q m2 (by
            rw [vcChoicesBranches, if_pos hm]
            exact List.mem_cons_of_mem _ h2)), except_bind_ok]
      · rw [instBranches, if_neg hm]
        exact instBranches_rt rest n p w pv
          (by simpa [fitsBranches, if_neg hm] using hf)
          (by simpa [cleanBranches, if_neg hm] using hcl)
          (fun i raw h2 => hleaf i raw (by rw [vcLeafItemsBranches, if_neg hm]; exact h2))
          (fun q m2 h2 => hch q m2 (by rw [vcChoicesBranches, if_neg hm]; exact h2))
end

theorem flatTokens_length_ge : ∀ (items : List (LeafInfo × List String)),
    items.length ≤ (flatTokens items).length
  | [] => le_refl _
  | (i, raw) :: rest => by
      have := flatTokens_length_ge rest
      simp only [flatTokens, List.length_cons, List.length_append]
      omega

theorem compileRoot_ok {t : TypeNode} {ex : Option Value} {tree : ArgTree}
    (hc : compileRoot t ex = .ok tree) :
    compile t ex [] = .ok tree ∧ ((allPaths tree).map flagOf).Nodup := by
  cases hcc : compile t ex [] with
  | error e => rw [compileRoot, hcc, except_bind_error] at hc; cases hc
  | ok tr =>
      rw [compileRoot, hcc, except_bind_ok] at hc
      by_cases hnd : ((allPaths tr).map flagOf).Nodup
      · rw [if_pos hnd] at hc
        cases hc
        exact ⟨rfl, hnd⟩
      · rw [if_neg hnd] at hc
        cases hc

/-- The full round trip, under unambiguous renderability: compiling a
supported TypeNode, rendering a well-typed value into the exact token
sequence the compiled ArgumentTree requires, then parsing and instantiating
those tokens, yields the value back. -/
theorem cli_round_trip (t : TypeNode) (v : Value) (tree : ArgTree)
    (hc : compileRoot t .none = .ok tree)
    (hv : hasType t v = true) (hclean : cleanVal t v = true) :
    cli t .none (render tree v) = .ok v := by
  obtain ⟨hcc, hnd⟩ := compileRoot_ok hc
  have hfits : fitsTree tree v = true := by rw [compile_fits t hcc v]; exact hv
  have hcl : cleanTree tree v = true := by rw [compile_clean t hcc v]; exact hclean
  have hwf : wfTree tree = true := compile_wf t hcc
  -- uniqueness facts
  have hndLeaves : ((allLeaves tree).map (fun l => flagOf l.path)).Nodup := by
    have h1 : (((allLeaves tree).map LeafInfo.path).map flagOf).Nodup :=
      hnd.sublist ((allLeavesPaths_sublist tree).map flagOf)
    rwa [List.map_map] at h1
  have hndChoice : ((allChoicePaths tree).map flagOf).Nodup :=
    hnd.sublist ((allChoicePaths_sublist tree).map flagOf)
  have hfinalflags : ((flagMap tree ++ vcFlags tree v).map (fun l => flagOf l.path)).Nodup :=
    list_nodup_of_le (list_map_le_of_le _ (vcFlags_le tree v)) hndLeaves
  have hitemsflag : (((vcLeafItems tree v).map Prod.fst).map (fun l => flagOf l.path)).Nodup :=
    list_nodup_of_le
      (list_map_le_of_le _ (le_trans (vcItems_le tree v) (vcFlags_le tree v))) hndLeaves
  have hitemsPaths : (((vcLeafItems tree v).map Prod.fst).map LeafInfo.path).Nodup := by
    have h2 : ((((vcLeafItems tree v).map Prod.fst).map LeafInfo.path).map flagOf).Nodup := by
      rw [List.map_map]
      exact hitemsflag
    exact h2.of_map
  have hchoiceKeys : ((vcChoices tree v).map Prod.fst).Nodup :=
    (list_nodup_of_le (list_map_le_of_le flagOf (vcChoices_le tree v)) hndChoice).of_map
  -- the parse run
  have hdph := fits_dphase tree v hfits hwf
  have harith : (render tree v).length + treeSize tree + 1 =
      (vcSels tree v).length + ((flatTokens (vcLeafItems tree v)).length + treeSize tree + 1) := by
    simp only [render, List.length_append]
    omega
  have hD := parseLoop_dphase hdph (flagMap tree) ⟨[], []⟩
    (flatTokens (vcLeafItems tree v))
    ((flatTokens (vcLeafItems tree v)).length + treeSize tree + 1)
  have hlk : ∀ i raw, (i, raw) ∈ vcLeafItems tree v →
      lookupFlag (flagMap tree ++ vcFlags tree v) (flagOf i.path) = some i :=
    fun i raw hm => lookupFlag_eq_some hfinalflags (item_mem_flags hm)
  have hlt : (vcLeafItems tree v).length <
      (flatTokens (vcLeafItems tree v)).length + treeSize tree + 1 := by
    have := flatTokens_length_ge (vcLeafItems tree v)
    omega
  have hF := parseLoop_items (vcLeafItems tree v) (flagMap tree ++ vcFlags tree v)
    ⟨[], (vcChoices tree v).reverse ++ []⟩
    ((flatTokens (vcLeafItems tree v)).length + treeSize tree + 1)
    hlk (vcItems_arity tree v hfits hcl) hlt
  have hparse : parse tree (render tree v) =
      .ok ⟨((vcLeafItems tree v).map (fun x => (x.1.path, x.2))).reverse ++ [],
        (vcChoices tree v).reverse ++ []⟩ := by
    rw [parse, harith]
    rw [show render tree v = vcSels tree v ++ flatTokens (vcLeafItems tree v) from rfl]
    rw [hD]
    exact hF
  -- instantiation
  have hleaf : ∀ i raw, (i, raw) ∈ vcLeafItems tree v →
      alookup i.path (((vcLeafItems tree v).map (fun x => (x.1.path, x.2))).reverse ++ [])
        = some raw := by
    intro i raw hm
    rw [List.append_nil]
    refine alookup_eq_some_of_mem ?_ ?_
    · rw [List.map_reverse]
      rw [List.nodup_reverse]
      have hmm : ((vcLeafItems tree v).map (fun x => (x.1.path, x.2))).map Prod.fst =
          ((vcLeafItems tree v).map Prod.fst).map LeafInfo.path := by
        rw [List.map_map, List.map_map]
        rfl
      rw [hmm]
      exact hitemsPaths
    · rw [List.mem_reverse]
      exact List.mem_map.mpr ⟨(i, raw), hm, rfl⟩
  have hch : ∀ p n, (p, n) ∈ vcChoices tree v →
      alookup p ((vcChoices tree v).reverse ++ []) = some n := by
    intro p n hm
    rw [List.append_nil]
    refine alookup_eq_some_of_mem ?_ ?_
    · rw [List.map_reverse, List.nodup_reverse]
      exact hchoiceKeys
    · rw [List.mem_reverse]
      exact hm
  have hinst := inst_rt tree v
    ⟨((vcLeafItems tree v).map (fun x => (x.1.path, x.2))).reverse ++ [],
      (vcChoices tree v).reverse ++ []⟩ hfits hcl hleaf hch
  rw [cli, hc, except_bind_ok, hparse, except_bind_ok]
  exact hinst

/-! ### Parsed leaves come only from flags present in the input -/

theorem lookupFlag_flag : ∀ {flags : List LeafInfo} {tok : String} {l : LeafInfo},
    lookupFlag flags tok = some l → flagOf l.path = tok := by
  intro flags
  induction flags with
  | nil => intro tok l h; simp [lookupFlag] at h
  | cons x rest ih =>
      intro tok l h
      by_cases he : flagOf x.path = tok
      · rw [lookupFlag, if_pos he] at h
        cases h
        exact he
      · rw [lookupFlag, if_neg he] at h
        exact ih h

theorem consumeArity_rest_mem {path : List String} {a : Arity} {toks vals rest2 : List String}
    (h : consumeArity path a toks = .ok (vals, rest2)) : ∀ x ∈ rest2, x ∈ toks := by
  cases a with
  | exactlyN n =>
      rw [consumeArity] at h
      by_cases hle : n ≤ toks.length
      · rw [if_pos hle] at h
        cases h
        exact fun x hx => (List.drop_sublist n toks).mem hx
      · rw [if_neg hle] at h
        cases h
  | zeroOrMore =>
      rw [consumeArity] at h
      cases h
      exact fun x hx => (List.dropWhile_sublist _).mem hx
  | oneOrMore =>
      rw [consumeArity] at h
      by_cases hie : (toks.takeWhile (fun tk => !isFlagToken tk)).isEmpty = true
      · rw [if_pos hie] at h
        cases h
      · rw [if_neg hie] at h
        cases h
        exact fun x hx => (List.dropWhile_sublist _).mem hx

theorem parseLoop_leafVals : ∀ (fuel : Nat) (flags : List LeafInfo)
    (pending : List ChoiceInfo) (pv : PV) (toks : List String) (pv' : PV),
    parseLoop fuel flags pending pv toks = .ok pv' →
    ∀ q raw, (q, raw) ∈ pv'.leafVals → (q, raw) ∈ pv.leafVals ∨ flagOf q ∈ toks
  | 0, flags, pending, pv, toks, pv', h => by simp [parseLoop] at h
  | fuel + 1, flags, pending, pv, [], pv', h => by
      cases pending with
      | nil =>
          simp only [parseLoop, Except.ok.injEq] at h
          subst h
          exact fun q raw hm => Or.inl hm
      | cons c rest =>
          rw [parseLoop] at h
          cases hdb : c.defaultBranch with
          | none => simp only [hdb] at h; cases h
          | some d =>
              simp only [hdb] at h
              cases hfb : findBranch d c.branches with
              | none => simp only [hfb] at h; cases h
              | some pr =>
                  obtain ⟨desc, bt⟩ := pr
                  simp only [hfb] at h
                  intro q raw hm
                  rcases parseLoop_leafVals fuel _ _ _ _ _ h q raw hm with h2 | h2
                  · exact Or.inl (by simpa [PV.addChoice] using h2)
                  · exact absurd h2 (List.not_mem_nil _)
  | fuel + 1, flags, pending, pv, tok :: rest, pv', h => by
      cases pending with
      | nil =>
          rw [parseLoop] at h
          cases hlf : lookupFlag flags tok with
          | some l =>
              simp only [hlf] at h
              cases hca : consumeArity l.path (arityOf l.ty) rest with
              | error e => simp only [hca] at h; cases h
              | ok pr =>
                  obtain ⟨vals, rest2⟩ := pr
                  simp only [hca] at h
                  intro q raw hm
                  rcases parseLoop_leafVals fuel _ _ _ _ _ h q raw hm with h2 | h2
                  · rcases (by simpa [PV.addLeaf] using h2 :
                        (q = l.path ∧ raw = vals) ∨ (q, raw) ∈ pv.leafVals) with ⟨hq, hraw⟩ | h3
                    · right
                      rw [hq, lookupFlag_flag hlf]
                      exact List.mem_cons_self _ _
                    · exact Or.inl h3
                  · exact Or.inr (List.mem_cons_of_mem _ (consumeArity_rest_mem hca _ h2))
          | none => simp only [hlf] at h; cases h
      | cons c pend2 =>
          rw [parseLoop] at h
          cases hlf : lookupFlag flags tok with
          | some l =>
              simp only [hlf] at h
              cases hca : consumeArity l.path (arityOf l.ty) rest with
              | error e => simp only [hca] at h; cases h
              | ok pr =>
                  obtain ⟨vals, rest2⟩ := pr
                  simp only [hca] at h
                  intro q raw hm
                  rcases parseLoop_leafVals fuel _ _ _ _ _ h q raw hm with h2 | h2
                  · rcases (by simpa [PV.addLeaf] using h2 :
                        (q = l.path ∧ raw = vals) ∨ (q, raw) ∈ pv.leafVals) with ⟨hq, hraw⟩ | h3
                    · right
                      rw [hq, lookupFlag_flag hlf]
                      exact List.mem_cons_self _ _
                    · exact Or.inl h3
                  · exact Or.inr (List.mem_cons_of_mem _ (consumeArity_rest_mem hca _ h2))
          | none =>
              simp only [hlf] at h
              cases hfb : findBranch tok c.branches with
              | some pr =>
                  obtain ⟨desc, bt⟩ := pr
                  simp only [hfb] at h
                  intro q raw hm
                  rcases parseLoop_leafVals fuel _ _ _ _ _ h q raw hm with h2 | h2
                  · exact Or.inl (by simpa [PV.addChoice] using h2)
                  · exact Or.inr (List.mem_cons_of_mem _ h2)
              | none =>
                  simp only [hfb] at h
                  cases hdb : c.defaultBranch with
                  | none => simp only [hdb] at h; cases h
                  | some d =>
                      simp only [hdb] at h
                      cases hfb2 : findBranch d c.branches with
                      | none => simp only [hfb2] at h; cases h
                      | some pr =>
                          obtain ⟨desc, bt⟩ := pr
                          simp only [hfb2] at h
                          intro q raw hm
                          rcases parseLoop_leafVals fuel _ _ _ _ _ h q raw hm with h2 | h2
                          · exact Or.inl (by simpa [PV.addChoice] using h2)
                          · exact Or.inr h2

/-- Every leaf the Parser records was supplied by a flag token of the
input. -/
theorem parse_leafVals {tree : ArgTree} {tokens : List String} {pv : PV}
    (h : parse tree tokens = .ok pv) :
    ∀ q raw, (q, raw) ∈ pv.leafVals → flagOf q ∈ tokens := by
  intro q raw hm
  rcases parseLoop_leafVals _ _ _ _ _ _ h q raw hm with h2 | h2
  · exact absurd h2 (List.not_mem_nil _)
  · exact h2

/-! ### Frame lemmas for the mapping adapter -/

theorem compile_rootPath_mem {t : TypeNode} {ex : Option Value} {p : List String}
    {tree : ArgTree} (h : compile t ex p = .ok tree) : p ∈ allPaths tree := by
  cases t with
  | scalar k =>
      simp only [compile, Except.ok.injEq] at h
      subst h
      simp [allPaths]
  | lit as =>
      simp only [compile, Except.ok.injEq] at h
      subst h
      simp [allPaths]
  | opt t =>
      by_cases hs : scalarish t = true
      · simp only [compile, hs, if_true, Except.ok.injEq] at h
        subst h
        simp [allPaths]
      · simp [compile, hs] at h
  | seq t len =>
      by_cases hs : scalarish t = true
      · simp only [compile, hs, if_true, Except.ok.injEq] at h
        subst h
        simp [allPaths]
      · simp [compile, hs] at h
  | tup ts =>
      by_cases hs : ts.all scalarish = true
      · simp only [compile, hs, if_true, Except.ok.injEq] at h
        subst h
        simp [allPaths]
      · simp [compile, hs] at h
  | mapping kt vt =>
      by_cases hs : (scalarish kt && scalarish vt) = true
      · simp only [compile, hs, if_true, Except.ok.injEq] at h
        subst h
        simp [allPaths]
      · simp [compile, hs] at h
  | record fields =>
      cases hc : compileFields fields (exRecord ex) p with
      | error e => rw [compile, hc, except_bind_error] at h; cases h
      | ok cs =>
          rw [compile, hc, except_bind_ok] at h
          cases h
          simp [allPaths]
  | union vars =>
      cases hc : compileVariants vars (exVariant ex) p with
      | error e => rw [compile, hc, except_bind_error] at h; cases h
      | ok bs =>
          rw [compile, hc, except_bind_ok] at h
          cases h
          simp [allPaths]
  | foreignTy => simp [compile] at h

theorem fieldsHeadPaths_le : ∀ (fields : List (String × TypeNode × Option Value))
    {exfs : List (String × Value)} {path : List String} {cs : List (String × ArgTree)},
    compileFields fields exfs path = .ok cs →
    (↑(fields.map (fun f => path ++ [f.1])) : Multiset (List String)) ≤
      ↑(allPathsChildren cs)
  | [], exfs, path, cs, h => by
      simp only [compileFields, Except.ok.injEq] at h
      subst h
      simp [allPathsChildren]
  | (name, ty, idef) :: rest, exfs, path, cs, h => by
      cases hc : compile ty (resolveDefault idef (alookup name exfs)) (path ++ [name]) with
      | error e => rw [compileFields, hc, except_bind_error] at h; cases h
      | ok c =>
          cases hcs : compileFields rest exfs path with
          | error e => rw [compileFields, hc, except_bind_ok, hcs, except_bind_error] at h; cases h
          | ok cs2 =>
              rw [compileFields, hc, except_bind_ok, hcs, except_bind_ok] at h
              cases h
              rw [show ((name, ty, idef) :: rest).map (fun f => path ++ [f.1]) =
                (path ++ [name]) :: rest.map (fun f => path ++ [f.1]) from rfl]
              show ((path ++ [name]) ::ₘ ↑(rest.map (fun f => path ++ [f.1])) :
                Multiset (List String)) ≤ ↑(allPaths c) + ↑(allPathsChildren cs2)
              rw [← Multiset.singleton_add]
              refine add_le_add ?_ (fieldsHeadPaths_le rest hcs)
              rw [Multiset.singleton_le, Multiset.mem_coe]
              exact compile_rootPath_mem hc

theorem entryType_not_missing {v : Value} {ty : TypeNode} (h : entryType v = some ty) :
    resolveDefault (some v) none = some v ∧ squash (some v) = some v ∧
    recordToMap v = v := by
  cases v <;> simp_all [entryType, resolveDefault, squash, recordToMap]

theorem dictFields_keys : ∀ {kvs : List (Value × Value)}
    {fields : List (String × TypeNode × Option Value)},
    dictFields kvs = some fields → ∀ s v, (Value.vstr s, v) ∈ kvs →
    ∃ td, (s, td) ∈ fields := by
  intro kvs
  induction kvs with
  | nil => intro fields h s v hm; cases hm
  | cons kv rest ih =>
      intro fields h s v hm
      obtain ⟨k, v2⟩ := kv
      cases k with
      | vstr s2 =>
          rw [dictFields] at h
          cases he : entryType v2 with
          | none => rw [he] at h; cases h
          | some ty =>
              rw [he] at h
              cases hr : dictFields rest with
              | none => rw [hr] at h; cases h
              | some fs =>
                  rw [hr] at h
                  cases h
                  rcases List.mem_cons.mp hm with h2 | h2
                  · have hk : Value.vstr s = Value.vstr s2 := congrArg Prod.fst h2
                    have hs : s = s2 := by injection hk
                    subst hs
                    exact ⟨(ty, if isMapVal v2 then none else some v2),
                      List.mem_cons_self _ _⟩
                  · obtain ⟨td, htd⟩ := ih hr s v h2
                    exact ⟨td, List.mem_cons_of_mem _ htd⟩
      | vbool b => simp [dictFields] at h
      | vint n => simp [dictFields] at h
      | vlist vs => simp [dictFields] at h
      | vtuple vs => simp [dictFields] at h
      | vmap kvs2 => simp [dictFields] at h
      | vnone => simp [dictFields] at h
      | vsome w => simp [dictFields] at h
      | vrecord fvs => simp [dictFields] at h
      | vvariant n w => simp [dictFields] at h
      | vmissing => simp [dictFields] at h

theorem dictPaths_head : ∀ {kvs : List (Value × Value)} {p : List String},
    p ∈ dictPathsEntries kvs →
    ∃ s v p2, (Value.vstr s, v) ∈ kvs ∧ p = s :: p2 ∧ p2 ∈ dictEntryPaths v := by
  intro kvs
  induction kvs with
  | nil => intro p hm; simp [dictPathsEntries] at hm
  | cons kv rest ih =>
      intro p hm
      obtain ⟨k, v2⟩ := kv
      cases k with
      | vstr s2 =>
          rw [dictPathsEntries] at hm
          rcases List.mem_append.mp hm with h2 | h2
          · obtain ⟨p2, hp2, hpe⟩ := List.mem_map.mp h2
            exact ⟨s2, v2, p2, List.mem_cons_self _ _, hpe.symm, hp2⟩
          · obtain ⟨s, v, p2, hmem, hpe, hpp⟩ := ih h2
            exact ⟨s, v, p2, List.mem_cons_of_mem _ hmem, hpe, hpp⟩
      | vbool b =>
          obtain ⟨s, v, p2, hmem, hpe, hpp⟩ := ih (by simpa [dictPathsEntries] using hm)
          exact ⟨s, v, p2, List.mem_cons_of_mem _ hmem, hpe, hpp⟩
      | vint n =>
          obtain ⟨s, v, p2, hmem, hpe, hpp⟩ := ih (by simpa [dictPathsEntries] using hm)
          exact ⟨s, v, p2, List.mem_cons_of_mem _ hmem, hpe, hpp⟩
      | vlist vs =>
          obtain ⟨s, v, p2, hmem, hpe, hpp⟩ := ih (by simpa [dictPathsEntries] using hm)
          exact ⟨s, v, p2, List.mem_cons_of_mem _ hmem, hpe, hpp⟩
      | vtuple vs =>
          obtain ⟨s, v, p2, hmem, hpe, hpp⟩ := ih (by simpa [dictPathsEntries] using hm)
          exact ⟨s, v, p2, List.mem_cons_of_mem _ hmem, hpe, hpp⟩
      | vmap kvs2 =>
          obtain ⟨s, v, p2, hmem, hpe, hpp⟩ := ih (by simpa [dictPathsEntries] using hm)
          exact ⟨s, v, p2, List.mem_cons_of_mem _ hmem, hpe, hpp⟩
      | vnone =>
          obtain ⟨s, v, p2, hmem, hpe, hpp⟩ := ih (by simpa [dictPathsEntries] using hm)
          exact ⟨s, v, p2, List.mem_cons_of_mem _ hmem, hpe, hpp⟩
      | vsome w =>
          obtain ⟨s, v, p2, hmem, hpe, hpp⟩ := ih (by simpa [dictPathsEntries] using hm)
          exact ⟨s, v, p2, List.mem_cons_of_mem _ hmem, hpe, hpp⟩
      | vrecord fvs =>
          obtain ⟨s, v, p2, hmem, hpe, hpp⟩ := ih (by simpa [dictPathsEntries] using hm)
          exact ⟨s, v, p2, List.mem_cons_of_mem _ hmem, hpe, hpp⟩
      | vvariant n w =>
          obtain ⟨s, v, p2, hmem, hpe, hpp⟩ := ih (by simpa [dictPathsEntries] using hm)
          exact ⟨s, v, p2, List.mem_cons_of_mem _ hmem, hpe, hpp⟩
      | vmissing =>
          obtain ⟨s, v, p2, hmem, hpe, hpp⟩ := ih (by simpa [dictPathsEntries] using hm)
          exact ⟨s, v, p2, List.mem_cons_of_mem _ hmem, hpe, hpp⟩

theorem valueAt_vmap_skip {s k : String} {x : Value} {tail : List (Value × Value)}
    {p : List String} (hne : s ≠ k) :
    valueAt (.vmap ((.vstr s, x) :: tail)) (k :: p) = valueAt (.vmap tail) (k :: p) := by
  simp [valueAt, strLookup, hne]

theorem entryType_compile {v : Value} {ty : TypeNode} (he : entryType v = some ty)
    (hnm : isMapVal v = false) (path : List String) :
    compile ty (some v) path = .ok (.leaf ⟨path, ty, some v⟩) := by
  cases v with
  | vbool b =>
      simp only [entryType, Option.some.injEq] at he
      subst he
      rfl
  | vint n =>
      simp only [entryType, Option.some.injEq] at he
      subst he
      rfl
  | vstr s =>
      simp only [entryType, Option.some.injEq] at he
      subst he
      rfl
  | vlist vs =>
      rw [entryType] at he
      cases hk : listElemKind vs with
      | none => rw [hk] at he; cases he
      | some k =>
          rw [hk] at he
          cases he
          simp [compile, scalarish, squash]
  | vmap kvs => simp [isMapVal] at hnm
  | vtuple vs => simp [entryType] at he
  | vnone => simp [entryType] at he
  | vsome w => simp [entryType] at he
  | vrecord fvs => simp [entryType] at he
  | vvariant n w => simp [entryType] at he
  | vmissing => simp [entryType] at he

theorem entryPaths_not_map {v : Value} (hnm : isMapVal v = false) :
    dictEntryPaths v = [[]] := by
  cases v <;> simp_all [isMapVal, dictEntryPaths]

/-- Exposure: the leaves of a compiled mapping-derived record are exactly the
default's scalar/sequence entries, at their dotted paths. -/
theorem dictLeafPaths : ∀ (kvs : List (Value × Value))
    {fields : List (String × TypeNode × Option Value)} {path : List String}
    {cs : List (String × ArgTree)},
    dictFields kvs = some fields →
    compileFields fields [] path = .ok cs →
    (allLeavesChildren cs).map LeafInfo.path =
      (dictPathsEntries kvs).map (fun p => path ++ p)
  | [], fields, path, cs, hdf, hcf => by
      simp only [dictFields, Option.some.injEq] at hdf
      subst hdf
      simp only [compileFields, Except.ok.injEq] at hcf
      subst hcf
      simp [allLeavesChildren, dictPathsEntries]
  | (k, v) :: rest, fields, path, cs, hdf, hcf => by
      cases k with
      | vstr s =>
          rw [dictFields] at hdf
          cases he : entryType v with
          | none => rw [he] at hdf; cases hdf
          | some ty =>
              rw [he] at hdf
              cases hr : dictFields rest with
              | none => rw [hr] at hdf; cases hdf
              | some fs =>
                  rw [hr] at hdf
                  cases hdf
                  rw [compileFields] at hcf
                  cases hc : compile ty
                      (resolveDefault (if isMapVal v then none else some v) (alookup s []))
                      (path ++ [s]) with
                  | error e => rw [hc, except_bind_error] at hcf; cases hcf
                  | ok c =>
                      cases hcs : compileFields fs [] path with
                      | error e =>
                          rw [hc, except_bind_ok, hcs, except_bind_error] at hcf
                          cases hcf
                      | ok cs2 =>
                          rw [hc, except_bind_ok, hcs, except_bind_ok] at hcf
                          cases hcf
                          rw [show allLeavesChildren ((s, c) :: cs2) =
                            allLeaves c ++ allLeavesChildren cs2 from rfl]
                          rw [dictPathsEntries, List.map_append, List.map_append]
                          congr 1
                          · cases hm : isMapVal v with
                            | false =>
                                rw [if_neg (by simp [hm])] at hc
                                rw [show alookup s ([] : List (String × Value)) = none
                                  from rfl] at hc
                                rw [(entryType_not_missing he).1] at hc
                                rw [entryType_compile he hm (path ++ [s])] at hc
                                cases hc
                                rw [entryPaths_not_map hm]
                                simp [allLeaves]
                            | true =>
                                have hv : ∃ kvs2, v = .vmap kvs2 := by
                                  cases v <;> simp_all [isMapVal]
                                obtain ⟨kvs2, hveq⟩ := hv
                                subst hveq
                                rw [if_pos (by rfl)] at hc
                                rw [show alookup s ([] : List (String × Value)) = none
                                  from rfl] at hc
                                rw [show resolveDefault none none = none from rfl] at hc
                                rw [entryType] at he
                                cases hdf2 : dictFields kvs2 with
                                | none => rw [hdf2] at he; cases he
                                | some fields2 =>
                                    rw [hdf2] at he
                                    cases he
                                    rw [compile] at hc
                                    cases hcf2 : compileFields fields2
                                        (exRecord none) (path ++ [s]) with
                                    | error e => rw [hcf2, except_bind_error] at hc; cases hc
                                    | ok cs3 =>
                                        rw [hcf2, except_bind_ok] at hc
                                        cases hc
                                        rw [show allLeaves (.group (path ++ [s]) cs3) =
                                          allLeavesChildren cs3 from rfl]
                                        rw [dictLeafPaths kvs2 hdf2 hcf2]
                                        rw [dictEntryPaths, List.map_map]
                                        refine List.map_congr_left ?_
                                        intro p2 hp2
                                        simp
                          · exact dictLeafPaths rest hr hcs
      | vbool b => simp [dictFields] at hdf
      | vint n => simp [dictFields] at hdf
      | vlist vs => simp [dictFields] at hdf
      | vtuple vs => simp [dictFields] at hdf
      | vmap kvs2 => simp [dictFields] at hdf
      | vnone => simp [dictFields] at hdf
      | vsome w => simp [dictFields] at hdf
      | vrecord fvs => simp [dictFields] at hdf
      | vvariant n w => simp [dictFields] at hdf
      | vmissing => simp [dictFields] at hdf

/-- The frame property of the mapping adapter: any entry whose flag is not
among the input tokens instantiates to exactly the default's entry. -/
theorem dictFrame : ∀ (kvs : List (Value × Value))
    {fields : List (String × TypeNode × Option Value)} {path : List String}
    {cs : List (String × ArgTree)} {pv : PV} {fvs : List (String × Value)}
    {tokens : List String},
    dictFields kvs = some fields →
    compileFields fields [] path = .ok cs →
    instChildren cs pv = .ok fvs →
    ((allPathsChildren cs).map flagOf).Nodup →
    (∀ q raw, alookup q pv.leafVals = some raw → flagOf q ∈ tokens) →
    ∀ p, p ∈ dictPathsEntries kvs → flagOf (path ++ p) ∉ tokens →
    valueAt (.vmap (fieldsToPairs fvs)) p = valueAt (.vmap kvs) p
  | [], fields, path, cs, pv, fvs, tokens, hdf, hcf, hic, hnd, hdom, p, hp, hflag => by
      simp [dictPathsEntries] at hp
  | (k, v) :: rest, fields, path, cs, pv, fvs, tokens, hdf, hcf, hic, hnd, hdom, p, hp, hflag => by
      cases k with
      | vstr s =>
          rw [dictFields] at hdf
          cases he : entryType v with
          | none => rw [he] at hdf; cases hdf
          | some ty =>
              rw [he] at hdf
              cases hr : dictFields rest with
              | none => rw [hr] at hdf; cases hdf
              | some fs =>
                  rw [hr] at hdf
                  cases hdf
                  have hfieldnodup :
                      ((((s, ty, if isMapVal v then none else some v) :: fs).map
                        (fun f => path ++ [f.1])).map flagOf).Nodup :=
                    list_nodup_of_le (list_map_le_of_le flagOf
                      (fieldsHeadPaths_le _ hcf)) hnd
                  rw [compileFields] at hcf
                  cases hc : compile ty
                      (resolveDefault (if isMapVal v then none else some v) (alookup s []))
                      (path ++ [s]) with
                  | error e => rw [hc, except_bind_error] at hcf; cases hcf
                  | ok c =>
                      cases hcs : compileFields fs [] path with
                      | error e =>
                          rw [hc, except_bind_ok, hcs, except_bind_error] at hcf
                          cases hcf
                      | ok cs2 =>
                          rw [hc, except_bind_ok, hcs, except_bind_ok] at hcf
                          cases hcf
                          have hndl : ((allPaths c).map flagOf).Nodup := by
                            rw [show allPathsChildren ((s, c) :: cs2) =
                              allPaths c ++ allPathsChildren cs2 from rfl,
                              List.map_append] at hnd
                            exact hnd.sublist (List.sublist_append_left _ _)
                          have hndr : ((allPathsChildren cs2).map flagOf).Nodup := by
                            rw [show allPathsChildren ((s, c) :: cs2) =
                              allPaths c ++ allPathsChildren cs2 from rfl,
                              List.map_append] at hnd
                            exact hnd.sublist (List.sublist_append_right _ _)
                          rw [instChildren] at hic
                          cases hiv : instantiate c pv with
                          | error e => rw [hiv, except_bind_error] at hic; cases hic
                          | ok val =>
                              cases hics : instChildren cs2 pv with
                              | error e =>
                                  rw [hiv, except_bind_ok, hics, except_bind_error] at hic
                                  cases hic
                              | ok fvs2 =>
                                  rw [hiv, except_bind_ok, hics, except_bind_ok] at hic
                                  cases hic
                                  rw [dictPathsEntries] at hp
                                  rcases List.mem_append.mp hp with hpA | hpB
                                  · -- entry (s, v) itself
                                    obtain ⟨p2, hp2, hpe⟩ := List.mem_map.mp hpA
                                    subst hpe
                                    cases hm : isMapVal v with
                                    | false =>
                                        rw [entryPaths_not_map hm] at hp2
                                        simp only [List.mem_singleton] at hp2
                                        subst hp2
                                        rw [if_neg (by simp [hm])] at hc
                                        rw [show alookup s ([] : List (String × Value)) =
                                          none from rfl] at hc
                                        rw [(entryType_not_missing he).1] at hc
                                        rw [entryType_compile he hm (path ++ [s])] at hc
                                        cases hc
                                        rw [instantiate] at hiv
                                        cases halk : alookup (path ++ [s]) pv.leafVals with
                                        | some raw =>
                                            exact absurd (hdom _ raw halk) hflag
                                        | none =>
                                            rw [halk] at hiv
                                            simp only [Except.ok.injEq] at hiv
                                            subst hiv
                                            simp [fieldsToPairs, valueAt, strLookup,
                                              (entryType_not_missing he).2.2]
                                    | true =>
                                        have hv2 : ∃ kvs2, v = .vmap kvs2 := by
                                          cases v <;> simp_all [isMapVal]
                                        obtain ⟨kvs2, hveq⟩ := hv2
                                        subst hveq
                                        rw [if_pos (by rfl)] at hc
                                        rw [show alookup s ([] : List (String × Value)) =
                                          none from rfl] at hc
                                        rw [show resolveDefault none none = none
                                          from rfl] at hc
                                        rw [entryType] at he
                                        cases hdf2 : dictFields kvs2 with
                                        | none => rw [hdf2] at he; cases he
                                        | some fields2 =>
                                            rw [hdf2] at he
                                            cases he
                                            rw [compile] at hc
                                            cases hcf2 : compileFields fields2
                                                (exRecord none) (path ++ [s]) with
                                            | error e =>
                                                rw [hcf2, except_bind_error] at hc
                                                cases hc
                                            | ok cs3 =>
                                                rw [hcf2, except_bind_ok] at hc
                                                cases hc
                                                rw [instantiate] at hiv
                                                cases hic3 : instChildren cs3 pv with
                                                | error e =>
                                                    rw [hic3, except_bind_error] at hiv
                                                    cases hiv
                                                | ok fvs3 =>
                                                    rw [hic3, except_bind_ok] at hiv
                                                    simp only [Except.ok.injEq] at hiv
                                                    subst hiv
                                                    have hnd3 :
                                                        ((allPathsChildren cs3).map
                                                          flagOf).Nodup := by
                                                      rw [show allPaths
                                                        (.group (path ++ [s]) cs3) =
                                                        (path ++ [s]) ::
                                                          allPathsChildren cs3 from rfl,
                                                        List.map_cons,
                                                        List.nodup_cons] at hndl
                                                      exact hndl.2
                                                    have hflag2 :
                                                        flagOf ((path ++ [s]) ++ p2) ∉
                                                          tokens := by
                                                      have heq :
                                                          path ++ (s :: p2) =
                                                          (path ++ [s]) ++ p2 := by simp
                                                      rw [← heq]
                                                      exact hflag
                                                    have := dictFrame kvs2 hdf2 hcf2 hic3
                                                      hnd3 hdom p2
                                                      (by simpa [dictEntryPaths] using hp2)
                                                      hflag2
                                                    simpa [fieldsToPairs, valueAt,
                                                      strLookup, recordToMap] using this
                                  · -- entry from the rest of the mapping
                                    obtain ⟨s2, v2, p2, hmem, hpe, hpp⟩ := dictPaths_head hpB
                                    subst hpe
                                    have hs2 : s ≠ s2 := by
                                      intro hss
                                      subst hss
                                      obtain ⟨td, htd⟩ := dictFields_keys hr s v2 hmem
                                      rw [List.map_cons, List.map_cons,
                                        List.nodup_cons] at hfieldnodup
                                      exact hfieldnodup.1 (List.mem_map.mpr
                                        ⟨path ++ [s], List.mem_map.mpr ⟨(s, td), htd, rfl⟩,
                                          rfl⟩)
                                    rw [show fieldsToPairs ((s, val) :: fvs2) =
                                      (.vstr s, recordToMap val) :: fieldsToPairs fvs2
                                      from rfl]
                                    rw [valueAt_vmap_skip hs2, valueAt_vmap_skip hs2]
                                    exact dictFrame rest hr hcs hics hndr hdom (s2 :: p2)
                                      hpB hflag
      | vbool b => simp [dictFields] at hdf
      | vint n => simp [dictFields] at hdf
      | vlist vs => simp [dictFields] at hdf
      | vtuple vs => simp [dictFields] at hdf
      | vmap kvs2 => simp [dictFields] at hdf
      | vnone => simp [dictFields] at hdf
      | vsome w => simp [dictFields] at hdf
      | vrecord fvs2 => simp [dictFields] at hdf
      | vvariant n w => simp [dictFields] at hdf
      | vmissing => simp [dictFields] at hdf

theorem string_data_nil {s : String} (h : s.data = []) : s = "" := by
  cases s
  simp_all

theorem flagOf_singleton (nm : String) :
    flagOf [nm] = ⟨'-' :: '-' :: nm.data.map normChar⟩ := by
  simp [flagOf, List.intercalate]

theorem flagOf_root_ne {nm : String} (h : nm ≠ "") : flagOf [] ≠ flagOf [nm] := by
  rw [flagOf_singleton]
  intro he
  have hd : ('-' :: '-' :: List.intercalate ['.'] (([] : List String).map
      fun s => s.data.map normChar)) = '-' :: '-' :: nm.data.map normChar :=
    congrArg String.data he
  simp only [List.map_nil] at hd
  have h2 : nm.data.map normChar = [] := by
    have h3 : List.intercalate ['.'] ([] : List (List Char)) = [] := rfl
    rw [h3] at hd
    injection hd with h4 h5
    injection h5 with h6 h7
    exact h7.symm
  have h8 : nm.data = [] := List.map_eq_nil_iff.mp h2
  exact h (string_data_nil h8)

/-- Compilation of a record with a single required plain leaf, given the
compiled leaf. -/
theorem cli_single_required {t : TypeNode} {nm : String} {tl : TypeNode}
    (hnm : nm ≠ "")
    (hc : compile t .none [] = .ok (.group [] [(nm, .leaf ⟨[nm], tl, none⟩)])) :
    cli t .none [] = .error (.requiredValueMissing [nm]) := by
  have hnodup : ((allPaths (.group [] [(nm, ArgTree.leaf ⟨[nm], tl, none⟩)])).map
      flagOf).Nodup := by
    simp [allPaths, allPathsChildren, flagOf_root_ne hnm]
  have hroot : compileRoot t .none = .ok (.group [] [(nm, ArgTree.leaf ⟨[nm], tl, none⟩)]) := by
    rw [compileRoot, hc, except_bind_ok, if_pos hnodup]
  rw [cli, hroot, except_bind_ok]
  have hparse : parse (.group [] [(nm, ArgTree.leaf ⟨[nm], tl, none⟩)]) [] =
      .ok ⟨[], []⟩ := by
    rw [parse]
    rw [show choicePointsOf (.group [] [(nm, ArgTree.leaf ⟨[nm], tl, none⟩)]) = []
      from rfl]
    rw [parseLoop]
  rw [hparse, except_bind_ok]
  rw [show instantiate (.group [] [(nm, ArgTree.leaf ⟨[nm], tl, none⟩)]) ⟨[], []⟩ =
    .error (.requiredValueMissing [nm]) from rfl]

mutual
theorem compile_error_shape : ∀ (t : TypeNode) {ex : Option Value} {path : List String}
    {e : Err}, compile t ex path = .error e → ∃ p, e = .unsupportedTypeDescription p
  | .scalar k, ex, path, e, h => by cases h
  | .lit as, ex, path, e, h => by cases h
  | .opt t, ex, path, e, h => by
      by_cases hs : scalarish t = true
      · rw [compile, if_pos hs] at h; cases h
      · rw [compile, if_neg hs] at h
        cases h
        exact ⟨path, rfl⟩
  | .seq t len, ex, path, e, h => by
      by_cases hs : scalarish t = true
      · rw [compile, if_pos hs] at h; cases h
      · rw [compile, if_neg hs] at h
        cases h
        exact ⟨path, rfl⟩
  | .tup ts, ex, path, e, h => by
      by_cases hs : ts.all scalarish = true
      · rw [compile, if_pos hs] at h; cases h
      · rw [compile, if_neg hs] at h
        cases h
        exact ⟨path, rfl⟩
  | .mapping kt vt, ex, path, e, h => by
      by_cases hs : (scalarish kt && scalarish vt) = true
      · rw [compile, if_pos hs] at h; cases h
      · rw [compile, if_neg hs] at h
        cases h
        exact ⟨path, rfl⟩
  | .record fields, ex, path, e, h => by
      cases hc : compileFields fields (exRecord ex) path with
      | error e2 =>
          rw [compile, hc, except_bind_error] at h
          cases h
          exact compileFields_error_shape fields hc
      | ok cs => rw [compile, hc, except_bind_ok] at h; cases h
  | .union vars, ex, path, e, h => by
      cases hc : compileVariants vars (exVariant ex) path with
      | error e2 =>
          rw [compile, hc, except_bind_error] at h
          cases h
          exact compileVariants_error_shape vars hc
      | ok bs => rw [compile, hc, except_bind_ok] at h; cases h
  | .foreignTy, ex, path, e, h => by
      rw [compile] at h
      cases h
      exact ⟨path, rfl⟩

theorem compileFields_error_shape : ∀ (fields : List (String × TypeNode × Option Value))
    {exfs : List (String × Value)} {path : List String} {e : Err},
    compileFields fields exfs path = .error e → ∃ p, e = .unsupportedTypeDescription p
  | [], exfs, path, e, h => by cases h
  | (name, ty, idef) :: rest, exfs, path, e, h => by
      cases hc : compile ty (resolveDefault idef (alookup name exfs)) (path ++ [name]) with
      | error e2 =>
          rw [compileFields, hc, except_bind_error] at h
          cases h
          exact compile_error_shape ty hc
      | ok c =>
          cases hcs : compileFields rest exfs path with
          | error e2 =>
              rw [compileFields, hc, except_bind_ok, hcs, except_bind_error] at h
              cases h
              exact compileFields_error_shape rest hcs
          | ok cs =>
              rw [compileFields, hc, except_bind_ok, hcs, except_bind_ok] at h
              cases h

theorem compileVariants_error_shape :
    ∀ (vars : List (String × Option String × Option Value × TypeNode))
    {exsel : Option (String × Value)} {path : List String} {e : Err},
    compileVariants vars exsel path = .error e → ∃ p, e = .unsupportedTypeDescription p
  | [], exsel, path, e, h => by cases h
  | (n, desc, vdef, vt) :: rest, exsel, path, e, h => by
      by_cases hn : n = ""
      · rw [compileVariants, if_pos hn] at h
        cases h
        exact ⟨path, rfl⟩
      · by_cases hdash : startsWithDash n = true
        · rw [compileVariants, if_neg hn, if_pos hdash] at h
          cases h
          exact ⟨path, rfl⟩
        · by_cases hrec : isRecordTy vt = true
          · rw [compileVariants, if_neg hn, if_neg (by simp [hdash]), if_pos hrec] at h
            cases hb : compile vt (branchEx exsel n vdef) (path ++ [n]) with
            | error e2 =>
                rw [hb, except_bind_error] at h
                cases h
                exact compile_error_shape vt hb
            | ok bt =>
                cases hbs : compileVariants rest exsel path with
                | error e2 =>
                    rw [hb, except_bind_ok, hbs, except_bind_error] at h
                    cases h
                    exact compileVariants_error_shape rest hbs
                | ok bs =>
                    rw [hb, except_bind_ok, hbs, except_bind_ok] at h
                    cases h
          · rw [compileVariants, if_neg hn, if_neg (by simp [hdash]), if_neg hrec] at h
            cases h
            exact ⟨path ++ [n], rfl⟩
end

mutual
theorem hasUnsupported_fails : ∀ (t : TypeNode) (ex : Option Value) (path : List String),
    hasUnsupported t = true →
    ∃ p, compile t ex path = .error (.unsupportedTypeDescription p)
  | .scalar k, ex, path, h => by simp [hasUnsupported] at h
  | .lit as, ex, path, h => by simp [hasUnsupported] at h
  | .opt t, ex, path, h => by
      simp only [hasUnsupported, Bool.not_eq_true'] at h
      exact ⟨path, by rw [compile, if_neg (by simp [h])]⟩
  | .seq t len, ex, path, h => by
      simp only [hasUnsupported, Bool.not_eq_true'] at h
      exact ⟨path, by rw [compile, if_neg (by simp [h])]⟩
  | .tup ts, ex, path, h => by
      simp only [hasUnsupported, Bool.not_eq_true'] at h
      exact ⟨path, by rw [compile, if_neg (by simp [h])]⟩
  | .mapping kt vt, ex, path, h => by
      simp only [hasUnsupported, Bool.not_eq_true'] at h
      exact ⟨path, by rw [compile, if_neg (by simp [h])]⟩
  | .record fields, ex, path, h => by
      obtain ⟨p, hp⟩ := hasUnsupportedFields_fails fields (exRecord ex) path h
      exact ⟨p, by rw [compile, hp, except_bind_error]⟩
  | .union vars, ex, path, h => by
      obtain ⟨p, hp⟩ := hasUnsupportedVariants_fails vars (exVariant ex) path h
      exact ⟨p, by rw [compile, hp, except_bind_error]⟩
  | .foreignTy, ex, path, h => ⟨path, rfl⟩

theorem hasUnsupportedFields_fails : ∀ (fields : List (String × TypeNode × Option Value))
    (exfs : List (String × Value)) (path : List String),
    hasUnsupportedFields fields = true →
    ∃ p, compileFields fields exfs path = .error (.unsupportedTypeDescription p)
  | [], exfs, path, h => by simp [hasUnsupportedFields] at h
  | (name, ty, idef) :: rest, exfs, path, h => by
      by_cases hty : hasUnsupported ty = true
      · obtain ⟨p, hp⟩ := hasUnsupported_fails ty
          (resolveDefault idef (alookup name exfs)) (path ++ [name]) hty
        exact ⟨p, by rw [compileFields, hp, except_bind_error]⟩
      · have hrest : hasUnsupportedFields rest = true := by
          simp only [hasUnsupportedFields, Bool.or_eq_true] at h
          rcases h with h | h
          · exact absurd h hty
          · exact h
        cases hc : compile ty (resolveDefault idef (alookup name exfs)) (path ++ [name]) with
        | error e =>
            obtain ⟨p, hp⟩ := compile_error_shape ty hc
            exact ⟨p, by rw [compileFields, hc, except_bind_error, hp]⟩
        | ok c =>
            obtain ⟨p, hp⟩ := hasUnsupportedFields_fails rest exfs path hrest
            exact ⟨p, by rw [compileFields, hc, except_bind_ok, hp, except_bind_error]⟩

theorem hasUnsupportedVariants_fails :
    ∀ (vars : List (String × Option String × Option Value × TypeNode))
    (exsel : Option (String × Value)) (path : List String),
    hasUnsupportedVariants vars = true →
    ∃ p, compileVariants vars exsel path = .error (.unsupportedTypeDescription p)
  | [], exsel, path, h => by simp [hasUnsupportedVariants] at h
  | (n, desc, vdef, vt) :: rest, exsel, path, h => by
      by_cases hn : n = ""
      · exact ⟨path, by rw [compileVariants, if_pos hn]⟩
      · by_cases hdash : startsWithDash n = true
        · exact ⟨path, by rw [compileVariants, if_neg hn, if_pos hdash]⟩
        · by_cases hrec : isRecordTy vt = true
          · by_cases hvt : hasUnsupported vt = true
            · obtain ⟨p, hp⟩ := hasUnsupported_fails vt (branchEx exsel n vdef)
                (path ++ [n]) hvt
              exact ⟨p, by
                rw [compileVariants, if_neg hn, if_neg (by simp [hdash]), if_pos hrec,
                  hp, except_bind_error]⟩
            · have hrest : hasUnsupportedVariants rest = true := by
                simp only [hasUnsupportedVariants, Bool.or_eq_true, Bool.not_eq_true'] at h
                rcases h with (h | h) | h
                · rw [h] at hrec; cases hrec
                · exact absurd h hvt
                · exact h
              cases hb : compile vt (branchEx exsel n vdef) (path ++ [n]) with
              | error e =>
                  obtain ⟨p, hp⟩ := compile_error_shape vt hb
                  exact ⟨p, by
                    rw [compileVariants, if_neg hn, if_neg (by simp [hdash]), if_pos hrec,
                      hb, except_bind_error, hp]⟩
              | ok bt =>
                  obtain ⟨p, hp⟩ := hasUnsupportedVariants_fails rest exsel path hrest
                  exact ⟨p, by
                    rw [compileVariants, if_neg hn, if_neg (by simp [hdash]), if_pos hrec,
                      hb, except_bind_ok, hp, except_bind_error]⟩
          · exact ⟨path ++ [n], by
              rw [compileVariants, if_neg hn, if_neg (by simp [hdash]), if_neg hrec]⟩
end

/-- The preset sugar builds exactly the explicit annotated union. -/
theorem subcommand_type_eq_explicit (base : TypeNode) (defaults : List (String × Value))
    (descriptions : List (String × String)) :
    extras.subcommand_type_from_defaults base defaults descriptions =
      explicitSubcommandUnion base defaults descriptions := by
  rw [extras.subcommand_type_from_defaults, explicitSubcommandUnion]
  congr 1
  induction defaults with
  | nil => rfl
  | cons d rest ih =>
      obtain ⟨n, v⟩ := d
      rw [extras.subcommand_type_from_defaults.go, List.map_cons, ih]

/-! ### The claims -/

/-- C1 (counterexample): the round-trip property as stated fails.  The record
with one optional text field, at the value wrapping the text None, is
well-typed and supported, yet rendering it into the exact token sequence its
ArgumentTree requires and parsing back yields the absent value instead. -/
theorem claim_C1_counterexample :
    hasType tyOptText valNoneStr = true ∧
    compileRoot tyOptText .none = .ok treeOptText ∧
    cli tyOptText .none (render treeOptText valNoneStr) = .ok (.vrecord [("a", .vnone)]) ∧
    Value.vrecord [("a", .vnone)] ≠ valNoneStr :=
  ⟨rfl, rfl, rfl, by simp [valNoneStr]⟩

/-- C1 (amended): for every supported TypeNode and every well-typed value
that renders unambiguously (no optional component rendering to the None
token, no variable-arity element token that looks like a flag), rendering the
value into the exact token sequence its compiled ArgumentTree requires and
then running Parse followed by Instantiate yields the value back. -/
theorem claim_C1_round_trip (t : TypeNode) (v : Value) (tree : ArgTree)
    (hc : compileRoot t .none = .ok tree) (hv : hasType t v = true)
    (hcl : cleanVal t v = true) :
    cli t .none (render tree v) = .ok v :=
  cli_round_trip t v tree hc hv hcl

theorem claim_C1_round_trip_witness :
    compileRoot tyUnionAB .none = .ok treeAB ∧
    hasType tyUnionAB (.vvariant "B" (.vrecord [("y", .vstr "hi")])) = true ∧
    cleanVal tyUnionAB (.vvariant "B" (.vrecord [("y", .vstr "hi")])) = true ∧
    cli tyUnionAB .none (render treeAB (.vvariant "B" (.vrecord [("y", .vstr "hi")]))) =
      .ok (.vvariant "B" (.vrecord [("y", .vstr "hi")])) :=
  ⟨rfl, rfl, rfl, claim_C1_round_trip tyUnionAB _ treeAB rfl rfl rfl⟩

/-- C2: a Record with exactly one field whose resolved default is the MISSING
sentinel (for any field name and any plain leaf-shaped field type), invoked
with an empty token list, fails with requiredValueMissing naming that field's
flag path. -/
theorem claim_C2_required_field (nm : String) (t : TypeNode) (dflt : Option Value)
    (hnm : nm ≠ "") (hleaf : plainLeaf t = true)
    (hmissing : resolveDefault dflt none = none) :
    cli (.record [(nm, t, dflt)]) .none [] = .error (.requiredValueMissing [nm]) := by
  cases t with
  | scalar k =>
      have hc : compile (.record [(nm, .scalar k, dflt)]) .none [] =
          .ok (.group [] [(nm, .leaf ⟨[nm], .scalar k, none⟩)]) := by
        rw [compile]
        rw [show exRecord .none = ([] : List (String × Value)) from rfl]
        rw [compileFields]
        rw [show alookup nm ([] : List (String × Value)) = (none : Option Value) from rfl]
        rw [hmissing]
        rw [show compile (.scalar k) none ([] ++ [nm]) = .ok (.leaf ⟨[nm], .scalar k, none⟩)
          from by simp [compile, squash]]
        rw [except_bind_ok, compileFields, except_bind_ok]
        rfl
      exact cli_single_required hnm hc
  | lit as =>
      have hc : compile (.record [(nm, .lit as, dflt)]) .none [] =
          .ok (.group [] [(nm, .leaf ⟨[nm], .lit as, none⟩)]) := by
        rw [compile]
        rw [show exRecord .none = ([] : List (String × Value)) from rfl]
        rw [compileFields]
        rw [show alookup nm ([] : List (String × Value)) = (none : Option Value) from rfl]
        rw [hmissing]
        rw [show compile (.lit as) none ([] ++ [nm]) = .ok (.leaf ⟨[nm], .lit as, none⟩)
          from by simp [compile, squash]]
        rw [except_bind_ok, compileFields, except_bind_ok]
        rfl
      exact cli_single_required hnm hc
  | seq te len =>
      have hc : compile (.record [(nm, .seq te len, dflt)]) .none [] =
          .ok (.group [] [(nm, .leaf ⟨[nm], .seq te len, none⟩)]) := by
        rw [compile]
        rw [show exRecord .none = ([] : List (String × Value)) from rfl]
        rw [compileFields]
        rw [show alookup nm ([] : List (String × Value)) = (none : Option Value) from rfl]
        rw [hmissing]
        rw [show compile (.seq te len) none ([] ++ [nm]) =
          .ok (.leaf ⟨[nm], .seq te len, none⟩)
          from by simp [compile, squash, show scalarish te = true from hleaf]]
        rw [except_bind_ok, compileFields, except_bind_ok]
        rfl
      exact cli_single_required hnm hc
  | tup ts =>
      have hc : compile (.record [(nm, .tup ts, dflt)]) .none [] =
          .ok (.group [] [(nm, .leaf ⟨[nm], .tup ts, none⟩)]) := by
        rw [compile]
        rw [show exRecord .none = ([] : List (String × Value)) from rfl]
        rw [compileFields]
        rw [show alookup nm ([] : List (String × Value)) = (none : Option Value) from rfl]
        rw [hmissing]
        rw [show compile (.tup ts) none ([] ++ [nm]) = .ok (.leaf ⟨[nm], .tup ts, none⟩)
          from by simp [compile, squash, show ts.all scalarish = true from hleaf]]
        rw [except_bind_ok, compileFields, except_bind_ok]
        rfl
      exact cli_single_required hnm hc
  | mapping kt vt =>
      have hc : compile (.record [(nm, .mapping kt vt, dflt)]) .none [] =
          .ok (.group [] [(nm, .leaf ⟨[nm], .mapping kt vt, none⟩)]) := by
        rw [compile]
        rw [show exRecord .none = ([] : List (String × Value)) from rfl]
        rw [compileFields]
        rw [show alookup nm ([] : List (String × Value)) = (none : Option Value) from rfl]
        rw [hmissing]
        rw [show compile (.mapping kt vt) none ([] ++ [nm]) =
          .ok (.leaf ⟨[nm], .mapping kt vt, none⟩)
          from by simp [compile, squash,
            show (scalarish kt && scalarish vt) = true from hleaf]]
        rw [except_bind_ok, compileFields, except_bind_ok]
        rfl
      exact cli_single_required hnm hc
  | opt te => simp [plainLeaf] at hleaf
  | record fields => simp [plainLeaf] at hleaf
  | union vars => simp [plainLeaf] at hleaf
  | foreignTy => simp [plainLeaf] at hleaf

theorem claim_C2_required_field_witness :
    cli (.record [("seed", .scalar .pint, some MISSING)]) .none [] =
      .error (.requiredValueMissing ["seed"]) :=
  claim_C2_required_field "seed" (.scalar .pint) (some MISSING) (by decide) rfl rfl

/-- C3: a Union of variant A (any record type, any default) and variant B
with a text field y, invoked with tokens selecting B and then supplying y,
instantiates a value tagged B with the given y; the result does not depend on
A's fields or defaults (A's type and default are universally quantified). -/
theorem claim_C3_union_dispatch (ta : TypeNode) (da : Option Value) (tree : ArgTree)
    (hc : compileRoot (.union [("A", none, da, ta), ("B", none, none, tyB)]) .none =
      .ok tree) :
    cli (.union [("A", none, da, ta), ("B", none, none, tyB)]) .none
      ["B", "--B.y", "hello"] = .ok (.vvariant "B" (.vrecord [("y", .vstr "hello")])) := by
  have h := cli_round_trip _ (.vvariant "B" (.vrecord [("y", .vstr "hello")])) tree hc
    rfl rfl
  obtain ⟨hcc, hnd⟩ := compileRoot_ok hc
  rw [compile] at hcc
  cases hcv : compileVariants [("A", none, da, ta), ("B", none, none, tyB)]
      (exVariant .none) [] with
  | error e => rw [hcv, except_bind_error] at hcc; cases hcc
  | ok bs =>
      rw [hcv, except_bind_ok] at hcc
      rw [compileVariants] at hcv
      rw [if_neg (by decide), if_neg (by decide)] at hcv
      by_cases hrec : isRecordTy ta = true
      · rw [if_pos hrec] at hcv
        cases hta : compile ta (branchEx (exVariant .none) "A" da) ([] ++ ["A"]) with
        | error e => rw [hta, except_bind_error] at hcv; cases hcv
        | ok bta =>
            rw [hta, except_bind_ok] at hcv
            rw [show compileVariants [("B", none, none, tyB)] (exVariant .none) [] =
              .ok [("B", none, btB)] from rfl] at hcv
            rw [except_bind_ok] at hcv
            cases hcv
            have htree : tree = .choice [] [("A", none, bta), ("B", none, btB)] none := by
              cases hcc
              rfl
            rw [htree] at h
            rw [show render (.choice [] [("A", none, bta), ("B", none, btB)] none)
              (.vvariant "B" (.vrecord [("y", .vstr "hello")])) =
              ["B", "--B.y", "hello"] from rfl] at h
            exact h
      · rw [if_neg hrec] at hcv
        cases hcv

theorem claim_C3_union_dispatch_witness :
    cli (.union [("A", none, none, tyA), ("B", none, none, tyB)]) .none
      ["B", "--B.y", "hello"] = .ok (.vvariant "B" (.vrecord [("y", .vstr "hello")])) :=
  claim_C3_union_dispatch tyA none treeAB rfl

/-- C4: for a Union whose existing default value identifies variant A as
default-selected, a token list omitting the variant selector but supplying
A's field x chooses branch A without consuming a selector token and
instantiates A with the overridden x; with no default-selected branch, both
the same token list and the empty one give a required-selection error at the
ChoicePoint's path. -/
theorem claim_C4_default_selected :
    cli tyUnionAB (some (.vvariant "A" (.vrecord [("x", .vint 1)]))) ["--A.x", "5"] =
      .ok (.vvariant "A" (.vrecord [("x", .vint 5)])) ∧
    cli tyUnionAB .none ["--A.x", "5"] = .error (.requiredValueMissing []) ∧
    cli tyUnionAB .none [] = .error (.requiredValueMissing []) :=
  ⟨rfl, rfl, rfl⟩

/-- C5: a Literal leaf over the constant set mnist/imagenet-50 rejects the
token cifar with valueConversionFailed naming the allowed set, and accepts
the token mnist. -/
theorem claim_C5_literal :
    cli tyLitRec .none ["--dataset", "cifar"] =
      .error (.valueConversionFailed ["dataset"] "cifar" (.lit ["mnist", "imagenet-50"])) ∧
    cli tyLitRec .none ["--dataset", "mnist"] = .ok (.vrecord [("dataset", .vstr "mnist")]) :=
  ⟨rfl, rfl⟩

/-- C6: for every compiled tree, flagOf is a pure function of the path (equal
paths give equal tokens) and injective on the tree's leaf paths (distinct
paths never share a token); and the record whose two fields naively normalize
to the same token fails to compile with the unsupported-type-description
error instead of silently aliasing them. -/
theorem claim_C6_flag_namer (t : TypeNode) (ex : Option Value) (tree : ArgTree)
    (hc : compileRoot t ex = .ok tree) :
    ((∀ p q, p ∈ allLeafPaths tree → q ∈ allLeafPaths tree →
        (flagOf p = flagOf q ↔ p = q)) ∧
      ((allLeafPaths tree).map flagOf).Nodup) ∧
    compileRoot (.record [("a_b", .scalar .pint, none), ("a-b", .scalar .pint, none)])
      .none = .error (.unsupportedTypeDescription []) := by
  obtain ⟨hcc, hnd⟩ := compileRoot_ok hc
  have hndL : ((allLeafPaths tree).map flagOf).Nodup := by
    have h1 := hnd.sublist ((allLeavesPaths_sublist tree).map flagOf)
    exact h1
  refine ⟨⟨?_, hndL⟩, rfl⟩
  intro p q hp hq
  constructor
  · intro he
    exact List.inj_on_of_nodup_map hndL hp hq he
  · intro he
    rw [he]

theorem claim_C6_flag_namer_witness :
    ((allLeafPaths treeAB).map flagOf).Nodup :=
  (claim_C6_flag_namer tyUnionAB .none treeAB rfl).1.2

/-- C7: a leaf of arity exactly N consumes exactly N tokens (whatever it
consumed prepended to the remainder is the input); the fixed-length-3 integer
sequence leaf succeeds on exactly 3 numeric tokens, fails short with
requiredValueMissing, and fails long with unrecognizedToken on the excess
token. -/
theorem claim_C7_arity :
    (∀ (n : Nat) (path : List String) (toks vals rest : List String),
      consumeArity path (.exactlyN n) toks = .ok (vals, rest) →
      vals.length = n ∧ vals ++ rest = toks) ∧
    cli tySeq3 .none ["--v", "1", "2", "3"] =
      .ok (.vrecord [("v", .vlist [.vint 1, .vint 2, .vint 3])]) ∧
    cli tySeq3 .none ["--v", "1", "2"] = .error (.requiredValueMissing ["v"]) ∧
    cli tySeq3 .none ["--v", "1", "2", "3", "4"] = .error (.unrecognizedToken "4") := by
  refine ⟨?_, rfl, rfl, rfl⟩
  intro n path toks vals rest h
  rw [consumeArity] at h
  by_cases hle : n ≤ toks.length
  · rw [if_pos hle] at h
    cases h
    exact ⟨by rw [List.length_take]; omega, List.take_append_drop n toks⟩
  · rw [if_neg hle] at h
    cases h

theorem claim_C7_arity_witness :
    (["1", "2"] : List String).length = 2 ∧
    (["1", "2"] : List String) ++ ["x"] = ["1", "2", "x"] :=
  claim_C7_arity.1 2 ["v"] ["1", "2", "x"] ["1", "2"] ["x"] rfl

/-- C8: every type definition containing a construct with no defined mapping
(an un-introspectable opaque type, a non-record union variant, a non-scalar
sequence/tuple/mapping element) fails to compile with the
unsupported-type-description error, the model of the package's
UnsupportedTypeAnnotationError; the failure propagates to the whole compile
call and is never silently skipped, as the nested concrete instances show. -/
theorem claim_C8_unsupported :
    (∀ (t : TypeNode) (ex : Option Value) (path : List String),
      hasUnsupported t = true →
      ∃ p, compile t ex path = .error (.unsupportedTypeDescription p)) ∧
    compile .foreignTy .none [] = .error (.unsupportedTypeDescription []) ∧
    compile (.union [("A", none, none, .scalar .pint)]) .none [] =
      .error (.unsupportedTypeDescription ["A"]) ∧
    compile (.record [("xs", .seq (.record []) none, none)]) .none [] =
      .error (.unsupportedTypeDescription ["xs"]) :=
  ⟨hasUnsupported_fails, rfl, rfl, rfl⟩

theorem claim_C8_unsupported_witness :
    ∃ p, compile (.record [("act", .foreignTy, none)]) .none [] =
      .error (.unsupportedTypeDescription p) :=
  claim_C8_unsupported.1 (.record [("act", .foreignTy, none)]) .none [] rfl

/-- C9: running cli on the type produced by
extras.subcommand_type_from_defaults yields, for every record type, every
defaults mapping, every descriptions mapping and every token list, the same
result as running cli on the explicit Union whose variants are the record
type annotated per name with that name, default and description. -/
theorem claim_C9_preset_equiv (base : TypeNode) (defaults : List (String × Value))
    (descriptions : List (String × String)) (tokens : List String) :
    cli (extras.subcommand_type_from_defaults base defaults descriptions) .none tokens =
    cli (explicitSubcommandUnion base defaults descriptions) .none tokens := by
  rw [subcommand_type_eq_explicit]

/-- C10: calling cli with the plain mapping type derived from an existing
nested-mapping default exposes exactly the nested scalar/sequence entries as
dotted flags (for example the checkpoint-steps entry), and the returned
mapping keeps every entry not overridden by a supplied token exactly equal to
the default's entry; the concrete YAML example overrides only
checkpoint-steps. -/
theorem claim_C10_dict_override (dv : Value) (T : TypeNode) (tokens : List String)
    (res : Value) (hd : dictTypeNode dv = some T) (hok : cli T .none tokens = .ok res) :
    ((∀ tree, compileRoot T .none = .ok tree → allLeafPaths tree = dictPaths dv) ∧
     (∀ p, p ∈ dictPaths dv → flagOf p ∉ tokens →
       valueAt (recordToMap res) p = valueAt dv p)) ∧
    (flagOf ["training", "checkpoint_steps"] = "--training.checkpoint-steps" ∧
     dictTypeNode yamlExample = some yamlT ∧
     cli yamlT .none yamlTokens = .ok yamlRes ∧
     recordToMap yamlRes = yamlOverridden) := by
  refine ⟨?_, rfl, rfl, rfl, rfl⟩
  cases dv with
  | vmap kvs =>
      rw [dictTypeNode] at hd
      cases hdf : dictFields kvs with
      | none => rw [hdf] at hd; cases hd
      | some fields =>
          rw [hdf] at hd
          cases hd
          rw [cli] at hok
          cases hcr : compileRoot (.record fields) .none with
          | error e => rw [hcr, except_bind_error] at hok; cases hok
          | ok tree =>
              rw [hcr, except_bind_ok] at hok
              obtain ⟨hcc, hnd⟩ := compileRoot_ok hcr
              rw [compile] at hcc
              cases hcf : compileFields fields (exRecord .none) [] with
              | error e => rw [hcf, except_bind_error] at hcc; cases hcc
              | ok cs =>
                  rw [hcf, except_bind_ok] at hcc
                  cases hcc
                  cases hparse : parse (.group [] cs) tokens with
                  | error e => rw [hparse, except_bind_error] at hok; cases hok
                  | ok pv =>
                      rw [hparse, except_bind_ok] at hok
                      rw [instantiate] at hok
                      cases hic : instChildren cs pv with
                      | error e => rw [hic, except_bind_error] at hok; cases hok
                      | ok fvs =>
                          rw [hic, except_bind_ok] at hok
                          cases hok
                          have hcf2 : compileFields fields [] [] = .ok cs := hcf
                          constructor
                          · intro tree' hcr'
                            cases hcr'
                            have := dictLeafPaths kvs hdf hcf2
                            rw [show allLeafPaths (.group [] cs) =
                              (allLeavesChildren cs).map LeafInfo.path from rfl, this]
                            rw [show dictPaths (.vmap kvs) = dictPathsEntries kvs from rfl]
                            simp
                          · intro p hp hflag
                            have hnd2 : ((allPathsChildren cs).map flagOf).Nodup := by
                              rw [show allPaths (.group [] cs) =
                                [] :: allPathsChildren cs from rfl, List.map_cons,
                                List.nodup_cons] at hnd
                              exact hnd.2
                            have hdom := parse_leafVals hparse
                            have hfr := dictFrame kvs hdf hcf2 hic hnd2
                              (fun q raw h2 => hdom q raw (alookup_mem h2)) p
                              (by simpa [dictPaths] using hp)
                              (by simpa using hflag)
                            simpa [recordToMap, dictPaths] using hfr
  | vbool b => simp [dictTypeNode] at hd
  | vint n => simp [dictTypeNode] at hd
  | vstr s => simp [dictTypeNode] at hd
  | vlist vs => simp [dictTypeNode] at hd
  | vtuple vs => simp [dictTypeNode] at hd
  | vnone => simp [dictTypeNode] at hd
  | vsome w => simp [dictTypeNode] at hd
  | vrecord fvs => simp [dictTypeNode] at hd
  | vvariant n w => simp [dictTypeNode] at hd
  | vmissing => simp [dictTypeNode] at hd

theorem claim_C10_dict_override_witness :
    valueAt (recordToMap yamlRes) ["training", "batch_size"] =
      valueAt yamlExample ["training", "batch_size"] :=
  (claim_C10_dict_override yamlExample yamlT yamlTokens yamlRes rfl rfl).1.2
    ["training", "batch_size"] (by decide) (by decide)

end Dcargs
